import Mathlib

/-!
Verification development for the beam language workbench (grammar model,
grammar notation reader/writer, recursive-descent parser, typing-rule
notation parser, canonical tree codec).

The Rust source is embedded shallowly: strings are Lean strings, string
operations are re-implemented over character lists so that every
definition evaluates inside the kernel, hash maps keyed by strings are
association lists (the source only ever looks maps up by key, or emits
entries sorted by key, so the association-list model is observation
equivalent), and fallible functions return values of the Except type.

A note on the two typing-rule representations of the source: the struct
declared in logic/grammar/typing.rs has structured premises and
conclusion (lists of Premise values), while logic/grammar/load.rs,
logic/check/mod.rs and the tests in logic/mod.rs construct and consume a
typing rule whose premises and conclusion are raw strings.  Both shapes
are embedded here: RawTypingRule is the raw shape that Grammar.load
actually produces, TypingRule is the structured shape of
logic/grammar/typing.rs together with its parsing constructor
TypingRule.new.
-/

deriving instance DecidableEq for Except

namespace Beam

/-! ### Character-list string primitives

These model the Rust standard-library string operations used by the
source (contains, splitn, split, trim, trim_matches, starts_with,
ends_with, split_whitespace).  They are written by structural recursion
so that concrete inputs evaluate by kernel reduction. -/

/-- Prefix test on character lists, modelling str::starts_with. -/
def isPrefixL : List Char → List Char → Bool
  | [], _ => true
  | _ :: _, [] => false
  | p :: ps, c :: cs => p == c && isPrefixL ps cs

/-- Leftmost occurrence split: returns the text before the first
occurrence of the pattern and the text after it, or none when the
pattern does not occur.  Models str::splitn with two pieces and
str::contains. -/
def splitFirstL (pat : List Char) : List Char → Option (List Char × List Char)
  | [] => if pat.isEmpty then some ([], []) else none
  | c :: rest =>
    if isPrefixL pat (c :: rest) then some ([], (c :: rest).drop pat.length)
    else
      match splitFirstL pat rest with
      | some (pre, post) => some (c :: pre, post)
      | none => none

/-- Substring containment, modelling str::contains for string patterns. -/
def containsStr (s pat : String) : Bool := (splitFirstL pat.data s.data).isSome

/-- Worker for splitOnS: repeatedly cuts at the first occurrence of the
separator.  The fuel argument makes the recursion structural; the
callers pass the input length plus one, which always suffices because a
cut with a non-empty separator consumes at least one character. -/
def splitOnFuel (sep : List Char) : Nat → List Char → List (List Char)
  | 0, cs => [cs]
  | f + 1, cs =>
    if sep.isEmpty then [cs]
    else
      match splitFirstL sep cs with
      | none => [cs]
      | some (pre, post) => pre :: splitOnFuel sep f post

/-- Split on every occurrence of a separator, modelling str::split for
string or character separators. -/
def splitOnS (s sep : String) : List String :=
  (splitOnFuel sep.data (s.data.length + 1) s.data).map String.mk

/-- Whitespace trim from both ends, modelling str::trim. -/
def trimS (s : String) : String :=
  String.mk (((s.data.dropWhile Char.isWhitespace).reverse.dropWhile Char.isWhitespace).reverse)

/-- Trim every leading and trailing occurrence of one character,
modelling str::trim_matches with a char pattern. -/
def trimMatchesChar (c : Char) (s : String) : String :=
  String.mk (((s.data.dropWhile (· == c)).reverse.dropWhile (· == c)).reverse)

/-- Prefix test on strings, modelling str::starts_with. -/
def startsWithS (s pre : String) : Bool := isPrefixL pre.data s.data

/-- Suffix test on strings, modelling str::ends_with. -/
def endsWithS (s suf : String) : Bool := isPrefixL suf.data.reverse s.data.reverse

/-- Join with a separator, modelling slice::join. -/
def joinSep (sep : String) : List String → String
  | [] => ""
  | [x] => x
  | x :: y :: rest => x ++ sep ++ joinSep sep (y :: rest)

/-- Worker for splitWs. -/
def splitWsAux (acc : List Char) : List Char → List String
  | [] => if acc.isEmpty then [] else [String.mk acc.reverse]
  | c :: rest =>
    if c.isWhitespace then
      if acc.isEmpty then splitWsAux [] rest
      else String.mk acc.reverse :: splitWsAux [] rest
    else splitWsAux (c :: acc) rest

/-- Whitespace splitting with no empty pieces, modelling
str::split_whitespace. -/
def splitWs (s : String) : List String := splitWsAux [] s.data

/-- Stable insertion of a string into a sorted list, for sortStr. -/
def insertSorted (x : String) : List String → List String
  | [] => [x]
  | y :: ys => if decide (x ≤ y) then x :: y :: ys else y :: insertSorted x ys

/-- Stable sort of strings in lexicographic order, modelling the
slice::sort call of the grammar writer (the keys sorted are unique, so
stability is irrelevant). -/
def sortStr : List String → List String
  | [] => []
  | x :: xs => insertSorted x (sortStr xs)

/-- Association-list lookup, modelling HashMap::get / contains_key. -/
def lookupA {α : Type} (l : List (String × α)) (k : String) : Option α :=
  match l with
  | [] => none
  | (k2, v) :: rest => if k2 == k then some v else lookupA rest k

/-! ### logic/check/parse.rs -/

/-- RELATION_SYMBOLS from logic/check/parse.rs.  The source stores the
eight one-character strings; they are modelled as characters, which is
how the source consumes them (single-character substring tests and
per-character membership tests). -/
def RELATION_SYMBOLS : List Char := ['=', '<', '∈', '⊆', '⊂', '⊃', '⊇', ':']

/-- Membership of a character in RELATION_SYMBOLS. -/
def relChar (c : Char) : Bool := RELATION_SYMBOLS.contains c

/-- parse_context_extensions from logic/check/parse.rs: splits a context
string such as a context symbol followed by comma-separated var:type
pairs; the first piece must be the context symbol, empty pieces are
skipped, each remaining piece must split on the colon into exactly two
parts. -/
def parse_context_extensions (context_str : String) : Except String (String × List (String × String)) :=
  let context_str := trimS context_str
  let parts := splitOnS context_str ","
  let base := trimS (parts.headD "")
  if base ≠ "Γ" then
    .error ("Context must start with \x27Γ\x27, got \x27" ++ base ++ "\x27")
  else
    match ctxExtLoop parts.tail with
    | .ok exts => .ok (base, exts)
    | .error e => .error e
where
  ctxExtLoop : List String → Except String (List (String × String))
    | [] => .ok []
    | ext :: rest =>
      let ext := trimS ext
      if ext == "" then ctxExtLoop rest
      else
        let ext_parts := (splitOnS ext ":").map trimS
        if ext_parts.length ≠ 2 then
          .error ("Invalid context extension format, expected \x27var:type\x27: " ++ ext)
        else
          match ctxExtLoop rest with
          | .ok tail => .ok ((ext_parts.headD "", ext_parts.getD 1 "") :: tail)
          | .error e => .error e

/-- parse_judgement from logic/check/parse.rs: splits on the turnstile;
context extensions are computed from the left part (before the
two-part arity check, as in the source) whenever that part contains a
comma; the right part must split on the colon into expression and type. -/
def parse_judgement (judgment_str : String) :
    Except String (Option (List (String × String)) × String × String) :=
  let parts := (splitOnS judgment_str "⊢").map trimS
  let extStep : Except String (Option (List (String × String))) :=
    if containsStr (parts.headD "") "," then
      match parse_context_extensions (parts.headD "") with
      | .ok (_, exts) => .ok (some exts)
      | .error e => .error e
    else .ok none
  match extStep with
  | .error e => .error e
  | .ok extensions =>
    if parts.length ≠ 2 then
      .error ("Invalid typing judgment format: " ++ judgment_str)
    else
      let expr_parts := (splitOnS (parts.getD 1 "") ":").map trimS
      if expr_parts.length ≠ 2 then
        .error ("Invalid typing judgment format: " ++ judgment_str)
      else .ok (extensions, expr_parts.headD "", expr_parts.getD 1 "")

/-- parse_membership from logic/check/parse.rs. -/
def parse_membership (membership_str : String) : Except String (String × String) :=
  let parts := (splitOnS membership_str "∈").map trimS
  if parts.length ≠ 2 then .error ("Invalid membership format: " ++ membership_str)
  else .ok (parts.headD "", parts.getD 1 "")

/-- Character scan of parse_type_relation from logic/check/parse.rs:
every relation-symbol character is appended to the relation accumulator;
any other character goes to the left accumulator while the relation is
still empty and to the right accumulator afterwards. -/
def relScan : List Char → List Char → List Char → List Char → List Char × List Char × List Char
  | [], left, relation, right => (left, relation, right)
  | c :: cs, left, relation, right =>
    if relChar c then relScan cs left (relation ++ [c]) right
    else if relation.isEmpty then relScan cs (left ++ [c]) relation right
    else relScan cs left relation (right ++ [c])

/-- parse_type_relation from logic/check/parse.rs: scans the string with
relScan, fails when no relation symbol occurred or when the raw left or
right accumulation is empty, and returns the trimmed sides with the
accumulated relation. -/
def parse_type_relation (relation_str : String) : Except String (String × String × String) :=
  let scanned := relScan relation_str.data [] [] []
  let left := scanned.1
  let relation := scanned.2.1
  let right := scanned.2.2
  if relation.isEmpty then .error ("No relation symbol found in: " ++ relation_str)
  else if left.isEmpty || right.isEmpty then
    .error ("Invalid type relation format: " ++ relation_str)
  else .ok (trimS (String.mk left), trimS (String.mk right), String.mk relation)

/-! ### logic/grammar/typing.rs -/

/-- TypingExtension from logic/grammar/typing.rs.  The field holding the
variable name is called variable in the source; variable is a reserved
word in Lean, so it is spelled variable_ here. -/
structure TypingExtension where
  type_expr : String
  variable_ : String
deriving DecidableEq, Repr

/-- TypingJudgment from logic/grammar/typing.rs. -/
structure TypingJudgment where
  extensions : List TypingExtension
  expression : String
  type_expr : String
deriving DecidableEq, Repr

/-- Premise from logic/grammar/typing.rs. -/
inductive Premise where
  | Judgment : TypingJudgment → Premise
  | Membership : (variable_ : String) → (context : String) → Premise
  | TypeRelation : (left_type : String) → (right_type : String) → (relation : String) → Premise
  | Compound : List Premise → Premise

/-- Conclusion from logic/grammar/typing.rs. -/
inductive Conclusion where
  | TypeValue : String → Conclusion
  | Judgment : TypingJudgment → Conclusion
  | ContextLookup : String → Conclusion

/-- TypingRule as declared in logic/grammar/typing.rs: structured
premises and conclusion. -/
structure TypingRule where
  name : String
  premises : List Premise
  conclusion : Conclusion

/-- TYPE_CHARS from logic/grammar/typing.rs (verbatim, including the
trailing space). -/
def TYPE_CHARS : String :=
  "abcdefghijklmnopqrstuvwxyzABCDEFGHIJKLMNOPQRSTUVWXYZ0123456789_λτ→₁₂₃₄₅₆₇₈₉₀ "

/-- validate_type_expr from logic/grammar/typing.rs. -/
def validate_type_expr (expr : String) : Bool :=
  !expr.isEmpty && expr.data.all (TYPE_CHARS.data.contains ·)

/-- TypingRule::parse_premise from logic/grammar/typing.rs: a premise
starting with the context symbol and containing a turnstile is a
judgment; otherwise a premise containing the membership symbol is a
membership; otherwise a premise containing any relation symbol is a type
relation; anything else is an unknown premise format. -/
def TypingRule.parse_premise (premise_str : String) : Except String Premise :=
  let premise_str := trimS premise_str
  if startsWithS premise_str "Γ" && containsStr premise_str "⊢" then
    match parse_judgement premise_str with
    | .error e => .error e
    | .ok (vec_extensions, expression, type_expr) =>
      let extensions := match vec_extensions with
        | some exts => exts.map fun p => TypingExtension.mk p.2 p.1
        | none => []
      .ok (Premise.Judgment ⟨extensions, expression, type_expr⟩)
  else if containsStr premise_str "∈" then
    match parse_membership premise_str with
    | .error e => .error e
    | .ok (var, ctx) => .ok (Premise.Membership var ctx)
  else if premise_str.data.any relChar then
    match parse_type_relation premise_str with
    | .error e => .error e
    | .ok (left, right, relation) => .ok (Premise.TypeRelation left right relation)
  else .error ("Unknown premise format: " ++ premise_str)

/-- Repeatedly strip the literal prefix used by the context-lookup
conclusion form, modelling str::trim_start_matches with that pattern. -/
def stripGammaParens : List Char → List Char
  | 'Γ' :: '(' :: rest => stripGammaParens rest
  | cs => cs

/-- TypingRule::parse_conclusion from logic/grammar/typing.rs. -/
def TypingRule.parse_conclusion (conclusion_str : String) : Except String Conclusion :=
  let conclusion_str := trimS conclusion_str
  if startsWithS conclusion_str "Γ(" then
    let var := String.mk ((stripGammaParens conclusion_str.data).reverse.dropWhile (· == ')')).reverse
    .ok (Conclusion.ContextLookup var)
  else if containsStr conclusion_str "⊢" then
    match parse_judgement conclusion_str with
    | .error e => .error e
    | .ok (extensions, expression, type_expr) =>
      let exts := (extensions.getD []).map fun p => TypingExtension.mk p.2 p.1
      .ok (Conclusion.Judgment ⟨exts, expression, type_expr⟩)
  else if validate_type_expr conclusion_str then
    .ok (Conclusion.TypeValue conclusion_str)
  else .error ("Invalid conclusion format: " ++ conclusion_str)

/-- Except-valued mapM over a list, written out so that it reduces. -/
def mapME {α β : Type} (f : α → Except String β) : List α → Except String (List β)
  | [] => .ok []
  | x :: xs =>
    match f x with
    | .error e => .error e
    | .ok y =>
      match mapME f xs with
      | .error e => .error e
      | .ok ys => .ok (y :: ys)

/-- TypingRule::new from logic/grammar/typing.rs: splits the premises
string on commas, trims, drops empty pieces, parses every piece as a
premise and parses the conclusion. -/
def TypingRule.new (str_premises conclusion name : String) : Except String TypingRule :=
  let pieces := ((splitOnS str_premises ",").map trimS).filter (· ≠ "")
  match mapME TypingRule.parse_premise pieces with
  | .error e => .error e
  | .ok premises =>
    match TypingRule.parse_conclusion conclusion with
    | .error e => .error e
    | .ok conclusion => .ok ⟨name, premises, conclusion⟩

/-! ### Grammar data model (logic/grammar/mod.rs and the raw typing rule
shape built by logic/grammar/load.rs) -/

/-- Symbol from logic/grammar/mod.rs. -/
structure Symbol where
  value : String
  binding : Option String
deriving DecidableEq, Repr

/-- Symbol::new. -/
def Symbol.new (value : String) : Symbol := ⟨value, none⟩

/-- Symbol::with_binding. -/
def Symbol.with_binding (value binding : String) : Symbol := ⟨value, some binding⟩

/-- Production from logic/grammar/mod.rs. -/
structure Production where
  rule : Option String
  rhs : List Symbol
deriving DecidableEq, Repr

/-- Typing rule in the raw shape constructed by logic/grammar/load.rs
(and by parse_inference_rule in logic/grammar/utils.rs), and consumed by
logic/check/mod.rs and the tests of logic/mod.rs: the premises and the
conclusion are kept as unparsed strings. -/
structure RawTypingRule where
  name : String
  premises : String
  conclusion : String
deriving DecidableEq, Repr

/-- Grammar from logic/grammar/mod.rs.  The two hash maps are modelled
as association lists; the source only observes them through keyed
lookup, keyed insertion and key-sorted emission. -/
structure Grammar where
  productions : List (String × List Production)
  typing_rules : List (String × RawTypingRule)
  special_tokens : List String
deriving DecidableEq, Repr

/-- Grammar::new. -/
def Grammar.new : Grammar := ⟨[], [], []⟩

/-- Grammar::add_special_token: appends unless already present. -/
def Grammar.add_special_token (g : Grammar) (token : String) : Grammar :=
  if g.special_tokens.contains token then g
  else { g with special_tokens := g.special_tokens ++ [token] }

/-- HashMap::insert for the typing-rule table keyed by rule name:
replaces the entry with the same key, otherwise appends. -/
def insertRule : List (String × RawTypingRule) → RawTypingRule → List (String × RawTypingRule)
  | [], r => [(r.name, r)]
  | (k, v) :: rest, r => if k == r.name then (k, r) :: rest else (k, v) :: insertRule rest r

/-- Grammar::add_typing_rule. -/
def Grammar.add_typing_rule (g : Grammar) (rule : RawTypingRule) : Grammar :=
  { g with typing_rules := insertRule g.typing_rules rule }

/-- HashMap entry().or_default().push(production): appends the
production to the entry with the given key, creating the entry if
absent. -/
def pushProduction : List (String × List Production) → String → Production → List (String × List Production)
  | [], n, p => [(n, [p])]
  | (k, v) :: rest, n, p =>
    if k == n then (k, v ++ [p]) :: rest else (k, v) :: pushProduction rest n p

/-! ### logic/grammar/utils.rs -/

/-- is_regex from logic/grammar/utils.rs: slash-delimited and longer
than two bytes. -/
def is_regex (pattern : String) : Bool :=
  startsWithS pattern "/" && endsWithS pattern "/" && pattern.utf8ByteSize > 2

/-- parse_production from logic/grammar/utils.rs: splits a production
line at the first occurrence of the production separator. -/
def parse_production (line : String) : Except String (String × String) :=
  match splitFirstL "::=".data line.data with
  | none => .error ("Invalid production line: " ++ line)
  | some (pre, post) => .ok (trimS (String.mk pre), trimS (String.mk post))

/-- First index of a character in a character list. -/
def findCharIdx (c : Char) (cs : List Char) : Option Nat := cs.findIdx? (· == c)

/-- parse_nonterminal from logic/grammar/utils.rs: splits a left-hand
side such as a name followed by a parenthesized rule name.  The source
version never fails (the Result error case is unreachable). -/
def GrammarUtils.parse_nonterminal (nt_str : String) : Except String (String × Option String) :=
  match findCharIdx '(' nt_str.data with
  | none => .ok (trimS nt_str, none)
  | some open_paren =>
    match findCharIdx ')' nt_str.data.reverse with
    | none => .ok (trimS nt_str, none)
    | some rev_idx =>
      if nt_str.data.length - 1 - rev_idx > open_paren then
        let rule_name := trimS (String.mk ((nt_str.data.drop (open_paren + 1)).take
          (nt_str.data.length - 1 - rev_idx - (open_paren + 1))))
        .ok (trimS (String.mk (nt_str.data.take open_paren)),
          if rule_name == "" then none else some rule_name)
      else .ok (trimS nt_str, none)

/-- Symbol parsing for one right-hand-side token, from parse_rhs in
logic/grammar/utils.rs: regex tokens are kept whole, a token with a
bracket pair in the right order becomes a symbol with a binding, and
anything else is a plain symbol. -/
def rhsToken (token : String) : Symbol :=
  if is_regex token then Symbol.new token
  else
    let cs := token.data
    match findCharIdx '[' cs with
    | none => Symbol.new token
    | some open_bracket =>
      match findCharIdx ']' cs.reverse with
      | none => Symbol.new token
      | some rev_idx =>
        let close_bracket := cs.length - 1 - rev_idx
        if close_bracket > open_bracket then
          Symbol.with_binding (String.mk (cs.take open_bracket))
            (String.mk ((cs.drop (open_bracket + 1)).take (close_bracket - (open_bracket + 1))))
        else Symbol.new token

/-- parse_rhs from logic/grammar/utils.rs: splits on the alternative
separator, trims and drops empty alternatives, then splits each
alternative on whitespace into symbols.  The source version never fails. -/
def parse_rhs (rhs : String) : Except String (List (List Symbol)) :=
  .ok ((((splitOnS rhs "|").map trimS).filter (· ≠ "")).map fun alt =>
    (splitWs alt).map rhsToken)

/-- Quoted-token test from special_tokens in logic/grammar/utils.rs. -/
def isQuotedTok (sym : String) : Bool :=
  (startsWithS sym "\x27" && endsWithS sym "\x27") ||
  (startsWithS sym "\"" && endsWithS sym "\"")

/-- special_tokens from logic/grammar/utils.rs: collects the
quote-stripped form of every quoted token of the right-hand side, first
appearance first, without duplicates. -/
def special_tokens (rhs : String) : List String :=
  let syms := (((splitOnS rhs "|").map trimS).filter (· ≠ "")).flatMap splitWs
  syms.foldl
    (fun found sym =>
      if isQuotedTok sym then
        let stripped := trimMatchesChar '"' (trimMatchesChar '\x27' sym)
        if found.contains stripped then found else found ++ [stripped]
      else found)
    []

/-! ### logic/grammar/load.rs -/

/-- Leftmost parenthesized capture, modelling the regex used by
Grammar::load to read the rule name off the dash line: the first
position from which an opening parenthesis is followed by at least one
character other than a closing parenthesis and then a closing
parenthesis. -/
def findParenCapture : List Char → Option String
  | [] => none
  | c :: rest =>
    if c == '(' then
      let inner := rest.takeWhile (· ≠ ')')
      if !inner.isEmpty && inner.length < rest.length then some (String.mk inner)
      else findParenCapture rest
    else findParenCapture rest

/-- Line preprocessing shared by every block of Grammar::load: split on
newlines, trim, drop empty lines and comment lines. -/
def blockLines (block : String) : List String :=
  ((splitOnS block "\n").map trimS).filter fun l => l ≠ "" && !startsWithS l "//"

/-- Production-block loop of Grammar::load: each line containing the
production separator starts a production, immediately following lines
starting with the alternative bar are continuations; the joined line is
parsed and its alternatives and special tokens are added to the
grammar. -/
def prodLines (g : Grammar) : Nat → List String → Except String Grammar
  | 0, _ => .ok g
  | _ + 1, [] => .ok g
  | fuel + 1, l :: rest =>
    if containsStr l "::=" then
      match parse_production (joinSep " " (l :: rest.takeWhile (fun x => startsWithS x "|"))) with
      | .error e => .error e
      | .ok (lhs_str, rhs_str) =>
        match GrammarUtils.parse_nonterminal lhs_str with
        | .error e => .error e
        | .ok (name, rule_name) =>
          match parse_rhs rhs_str with
          | .error e => .error e
          | .ok rhs_alternatives =>
            prodLines
              (rhs_alternatives.foldl
                (fun g2 alt =>
                  { g2 with productions := pushProduction g2.productions name ⟨rule_name, alt⟩ })
                ((special_tokens rhs_str).foldl Grammar.add_special_token g))
              fuel (rest.dropWhile (fun x => startsWithS x "|"))
    else prodLines g fuel rest

/-- Block dispatch of Grammar::load: a block with a production line goes
through the production loop; otherwise a block with a dash line is read
as a typing rule (name from the parenthesized capture of the dash line,
premises from the line before it, conclusion from the line after it);
any other block is skipped. -/
def loadBlock (g : Grammar) (block : String) : Except String Grammar :=
  if (blockLines block).isEmpty then .ok g
  else if (blockLines block).any (fun line => containsStr line "::=") then
    prodLines g ((blockLines block).length + 1) (blockLines block)
  else
    match (blockLines block).findIdx? (fun line => containsStr line "---") with
    | some dash_idx =>
      match findParenCapture ((blockLines block).getD dash_idx "").data with
      | none => .error "No rule name found in dash line"
      | some raw_name =>
        if dash_idx + 1 ≥ (blockLines block).length then .error "No conclusion after dash line"
        else
          .ok (g.add_typing_rule
            ⟨trimS raw_name,
             if dash_idx > 0 then (blockLines block).getD (dash_idx - 1) "" else "",
             (blockLines block).getD (dash_idx + 1) ""⟩)
    | none => .ok g

/-- Grammar::load from logic/grammar/load.rs: splits the input into
blocks on blank lines and folds every non-empty block into the grammar. -/
def Grammar.load (input : String) : Except String Grammar :=
  let blocks := (splitOnS input "\n\n").filter (fun b => trimS b ≠ "")
  loadFold Grammar.new blocks
where
  loadFold (g : Grammar) : List String → Except String Grammar
    | [] => .ok g
    | b :: rest =>
      match loadBlock g b with
      | .error e => .error e
      | .ok g2 => loadFold g2 rest

/-! ### logic/grammar/save.rs -/

/-- Unicode-alphanumeric test modelling char::is_alphanumeric for the
character repertoire of this development: ASCII alphanumerics plus the
Greek letters and subscript digits appearing in the repository's
grammars (all of which are alphanumeric in the Unicode sense). -/
def rustAlphanum (c : Char) : Bool :=
  c.isAlphanum || "τσλΓΔαβγδεπφψωρηθικμνξχζ₀₁₂₃₄₅₆₇₈₉".data.contains c

/-- format_rhs from logic/grammar/save.rs: a symbol with a binding
renders as value[binding]; otherwise a value already starting with a
quote passes through, a value that is not entirely alphanumeric is
quoted unless it is slash-delimited, and anything else passes through. -/
def format_rhs (rhs_symbols : List Symbol) : String :=
  joinSep " " (rhs_symbols.map fun symbol =>
    match symbol.binding with
    | some binding => symbol.value ++ "[" ++ binding ++ "]"
    | none =>
      if symbol.value.utf8ByteSize > 1 &&
          (startsWithS symbol.value "\x27" || startsWithS symbol.value "\"") then
        symbol.value
      else if !(symbol.value.data.all rustAlphanum) then
        if startsWithS symbol.value "/" && endsWithS symbol.value "/" then symbol.value
        else "\x27" ++ symbol.value ++ "\x27"
      else symbol.value)

/-- Context rendering shared by format_premises and format_conclusion
in logic/grammar/save.rs. -/
def formatCtx (extensions : List TypingExtension) : String :=
  if extensions.isEmpty then "Γ"
  else "Γ," ++ joinSep "," (extensions.map fun e => e.variable_ ++ ":" ++ e.type_expr)

mutual

/-- format_premises from logic/grammar/save.rs (one premise). -/
def format_premise : Premise → String
  | .Judgment ⟨extensions, expression, type_expr⟩ =>
    formatCtx extensions ++ " ⊢ " ++ expression ++ " : " ++ type_expr
  | .Membership variable_ context => variable_ ++ " ∈ " ++ context
  | .TypeRelation left_type right_type relation => left_type ++ " " ++ relation ++ " " ++ right_type
  | .Compound inner => format_premises inner

/-- format_premises from logic/grammar/save.rs (comma-joined list). -/
def format_premises : List Premise → String
  | [] => ""
  | [p] => format_premise p
  | p :: q :: rest => format_premise p ++ ", " ++ format_premises (q :: rest)

end

/-- format_conclusion from logic/grammar/save.rs. -/
def format_conclusion : Conclusion → String
  | .TypeValue s => s
  | .Judgment j => formatCtx j.extensions ++ " ⊢ " ++ j.expression ++ " : " ++ j.type_expr
  | .ContextLookup var => "Γ(" ++ var ++ ")"

/-- One production line of the writer: the first alternative carries the
left-hand side (with the first alternative's rule name), later
alternatives are appended after the alternative bar. -/
def renderNT (nt : String) : List Production → String
  | [] => ""
  | p :: rest =>
    let lhs := match p.rule with
      | some rule_name => nt ++ "(" ++ rule_name ++ ")"
      | none => nt
    lhs ++ " ::= " ++ format_rhs p.rhs ++
      String.join (rest.map fun q => " | " ++ format_rhs q.rhs)

/-- Stable sort of structured typing rules by name, modelling the
sort_by_key call of the writer (rule names are unique map keys). -/
def sortRules (rules : List TypingRule) : List TypingRule :=
  sortRulesGo rules
where
  insertR (x : TypingRule) : List TypingRule → List TypingRule
    | [] => [x]
    | y :: ys => if decide (x.name ≤ y.name) then x :: y :: ys else y :: insertR x ys
  sortRulesGo : List TypingRule → List TypingRule
    | [] => []
    | x :: xs => insertR x (sortRulesGo xs)

/-- One typing-rule paragraph of the writer: premises line, dash line
sized from the byte length of the rendered conclusion with the rule name
in parentheses, conclusion line, blank line. -/
def renderRule (rule : TypingRule) : String :=
  let concl_str := format_conclusion rule.conclusion
  let line := String.mk (List.replicate (max 20 (concl_str.utf8ByteSize + 5)) '-')
  format_premises rule.premises ++ "\n" ++ line ++ " (" ++ rule.name ++ ")\n" ++
    concl_str ++ "\n\n"

/-- Grammar::to_spec_string from logic/grammar/save.rs.  The production
table and the special tokens are those of the Grammar structure; the
typing rules are passed as the structured rules of
logic/grammar/typing.rs, which is the shape this writer reads (the raw
rules produced by Grammar.load do not fit it; see the development
header). -/
def to_spec_string (productions : List (String × List Production)) (rules : List (String × TypingRule)) : String :=
  let nt_list := sortStr (productions.map (·.1))
  let prodSection := "// --- Production Rules ---\n" ++
    String.join (nt_list.map fun nt =>
      match lookupA productions nt with
      | some alts => renderNT nt alts ++ "\n"
      | none => "") ++ "\n"
  if rules.isEmpty then prodSection
  else
    prodSection ++ "// --- Typing Rules ---\n" ++
      String.join ((sortRules (rules.map (·.2))).map renderRule)

/-! ### Regular-expression engine

Models the external regex crate at the boundary used by
Parser::parse_symbol: Regex::new compiles a pattern or fails, and
is_match searches for a match anywhere inside the token.  The modelled
pattern subset covers what the repository's grammars use: literal
characters, the any-character dot (not matching a newline), character
classes with ranges and optional negation, the one-character
quantifiers, and escaped punctuation.  Patterns outside the subset
(groups, alternation, anchors, repetition braces, class shorthands) are
treated as failing to compile. -/

/-- One regex atom. -/
inductive RAtom where
  | rchar : Char → RAtom
  | rdot : RAtom
  | rclass : Bool → List (Char × Char) → RAtom
deriving DecidableEq, Repr

/-- Quantifier attached to an atom. -/
inductive RQuant where
  | one
  | star
  | plus
  | opt
deriving DecidableEq, Repr

/-- Compiled regex: a sequence of quantified atoms. -/
abbrev RSeq := List (RAtom × RQuant)

/-- Does one atom match one character. -/
def matchRAtom : RAtom → Char → Bool
  | .rchar c, x => c == x
  | .rdot, x => x ≠ '\n'
  | .rclass neg items, x =>
    let inside := items.any fun p => p.1 ≤ x && x ≤ p.2
    if neg then !inside else inside

/-- Character-class item parser: consumes items until the closing
bracket, handling ranges, escaped punctuation and a trailing hyphen. -/
def classItems : List Char → Option (List (Char × Char) × List Char)
  | [] => none
  | ']' :: rest => some ([], rest)
  | '\\' :: c :: rest =>
    if c.isAlphanum then none
    else
      match classItems rest with
      | some (items, r) => some ((c, c) :: items, r)
      | none => none
  | c :: '-' :: d :: rest =>
    if d == ']' then some ([(c, c), ('-', '-')], rest)
    else
      match classItems rest with
      | some (items, r) => some ((c, d) :: items, r)
      | none => none
  | c :: rest =>
    match classItems rest with
    | some (items, r) => some ((c, c) :: items, r)
    | none => none

/-- Optional quantifier character after an atom. -/
def takeQuant : List Char → RQuant × List Char
  | '*' :: r => (.star, r)
  | '+' :: r => (.plus, r)
  | '?' :: r => (.opt, r)
  | r => (.one, r)

/-- Pattern compiler with fuel (the callers pass the pattern length plus
one; every step consumes at least one character). -/
def compileSeqF : Nat → List Char → Option RSeq
  | 0, _ => none
  | _, [] => some []
  | f + 1, c :: rest =>
    if c == '[' then
      let negRest : Bool × List Char := match rest with
        | '^' :: r => (true, r)
        | _ => (false, rest)
      match classItems negRest.2 with
      | some ([], _) => none
      | some (items, r) =>
        let qr := takeQuant r
        match compileSeqF f qr.2 with
        | some s => some ((.rclass negRest.1 items, qr.1) :: s)
        | none => none
      | none => none
    else if c == '.' then
      let qr := takeQuant rest
      match compileSeqF f qr.2 with
      | some s => some ((.rdot, qr.1) :: s)
      | none => none
    else if c == '\\' then
      match rest with
      | [] => none
      | e :: r =>
        if e.isAlphanum then none
        else
          let qr := takeQuant r
          match compileSeqF f qr.2 with
          | some s => some ((.rchar e, qr.1) :: s)
          | none => none
    else if c == '*' || c == '+' || c == '?' then none
    else if c == '(' || c == ')' || c == '|' || c == '{' || c == '}' || c == '^' || c == '$' then none
    else
      let qr := takeQuant rest
      match compileSeqF f qr.2 with
      | some s => some ((.rchar c, qr.1) :: s)
      | none => none

/-- Regex::new at the model boundary: compiles or fails. -/
def compileRegex (pattern : String) : Option RSeq :=
  compileSeqF (pattern.data.length + 1) pattern.data

/-- Does the regex match some prefix of the character list.  The fuel
makes the recursion structural; every step shrinks the combined length
of the regex and the input, so the callers pass that combined length
plus one. -/
def matchSeq : Nat → RSeq → List Char → Bool
  | 0, _, _ => false
  | _ + 1, [], _ => true
  | f + 1, (a, .one) :: rest, s =>
    match s with
    | [] => false
    | c :: cs => matchRAtom a c && matchSeq f rest cs
  | f + 1, (a, .opt) :: rest, s =>
    matchSeq f rest s ||
      match s with
      | [] => false
      | c :: cs => matchRAtom a c && matchSeq f rest cs
  | f + 1, (a, .star) :: rest, s =>
    matchSeq f rest s ||
      match s with
      | [] => false
      | c :: cs => matchRAtom a c && matchSeq f ((a, .star) :: rest) cs
  | f + 1, (a, .plus) :: rest, s =>
    match s with
    | [] => false
    | c :: cs => matchRAtom a c && matchSeq f ((a, .star) :: rest) cs

/-- Prefix match with adequate fuel. -/
def matchHere (re : RSeq) (s : List Char) : Bool :=
  matchSeq (re.length + s.length + 1) re s

/-- Match starting from any position of the character list. -/
def searchL (re : RSeq) : List Char → Bool
  | [] => matchHere re []
  | c :: cs => matchHere re (c :: cs) || searchL re cs

/-- Regex::is_match at the model boundary: unanchored search anywhere
inside the token. -/
def regexSearch (re : RSeq) (token : String) : Bool := searchL re token.data

/-! ### logic/ast.rs -/

/-- NodeKind from logic/ast.rs. -/
inductive NodeKind where
  | Terminal
  | Nonterminal
deriving DecidableEq, Repr

/-- ASTNode from logic/ast.rs: kind, value, optional token-index span,
children present only for nonterminals, optional binding copied from the
producing symbol, and the optional typing rule attached by the parser
(in the raw shape the parser's grammar carries). -/
inductive ASTNode where
  | mk : NodeKind → String → Option (Nat × Nat) → Option (List ASTNode) →
      Option String → Option RawTypingRule → ASTNode

/-- Field accessor: kind. -/
def ASTNode.kind : ASTNode → NodeKind
  | .mk k _ _ _ _ _ => k

/-- Field accessor: value. -/
def ASTNode.value : ASTNode → String
  | .mk _ v _ _ _ _ => v

/-- Field accessor: span. -/
def ASTNode.span : ASTNode → Option (Nat × Nat)
  | .mk _ _ s _ _ _ => s

/-- Field accessor: children. -/
def ASTNode.children : ASTNode → Option (List ASTNode)
  | .mk _ _ _ c _ _ => c

/-- Field accessor: binding. -/
def ASTNode.binding : ASTNode → Option String
  | .mk _ _ _ _ b _ => b

/-- Field accessor: typing_rule. -/
def ASTNode.typing_rule : ASTNode → Option RawTypingRule
  | .mk _ _ _ _ _ r => r

/-! ### logic/parser.rs

The parser is embedded over an explicit token list (the tokenizer is an
external collaborator of the core; Parser::parse receives its output)
and an explicit cursor, with every function returning the result
together with the final cursor, modelling the mutable cursor field.
Recursion carries fuel, modelling the unbounded recursion of the source
(which can diverge on left-recursive grammars); the fuel is decremented
at every recursive step so the recursion is structural, and exhausted
fuel reports an error without moving the cursor. -/

/-- Terminal matching of Parser::parse_symbol (the let binding named
matches in the source): a quoted literal matches by equality after
stripping the quotes, a slash-delimited symbol matches by unanchored
regex search on the pattern with the slashes trimmed (a pattern that
fails to compile matches nothing), and anything else matches by
equality. -/
def terminal_matches (symbol : Symbol) (token : String) : Bool :=
  if startsWithS symbol.value "\x27" && endsWithS symbol.value "\x27" then
    trimMatchesChar '\x27' symbol.value == token
  else if startsWithS symbol.value "/" && endsWithS symbol.value "/" then
    match compileRegex (trimMatchesChar '/' symbol.value) with
    | some re => regexSearch re token
    | none => false
  else symbol.value == token

mutual

/-- Parser::parse_symbol: out-of-range cursor is an error; a symbol
naming a production is parsed as a nonterminal; otherwise the token is
matched by terminal_matches, building a terminal node and advancing on
success. -/
def parse_symbol (fuel : Nat) (g : Grammar) (tokens : List String) (pos : Nat) (symbol : Symbol) :
    Except String ASTNode × Nat :=
  if pos ≥ tokens.length then (.error "Unexpected end of input", pos)
  else
    let token := tokens.getD pos ""
    if (lookupA g.productions symbol.value).isSome then
      match fuel with
      | 0 => (.error "recursion fuel exhausted", pos)
      | f + 1 => parse_nonterminal f g tokens pos symbol.value
    else
      if terminal_matches symbol token then
        (.ok (ASTNode.mk .Terminal token (some (pos, pos + 1)) none symbol.binding none), pos + 1)
      else
        (.error ("Expected \x27" ++ symbol.value ++ "\x27, found \x27" ++ token ++ "\x27"), pos)
termination_by structural fuel

/-- Parser::try_production: parses the symbols of one alternative in
order, threading the cursor; the first failure aborts with the cursor
wherever the failing symbol left it. -/
def try_production (fuel : Nat) (g : Grammar) (tokens : List String) (pos : Nat)
    (rhs : List Symbol) : Except String (List ASTNode) × Nat :=
  match rhs with
  | [] => (.ok [], pos)
  | s :: rest =>
    match fuel with
    | 0 => (.error "recursion fuel exhausted", pos)
    | f + 1 =>
      match parse_symbol f g tokens pos s with
      | (.ok child, pos2) =>
        match try_production f g tokens pos2 rest with
        | (.ok children, pos3) => (.ok (child :: children), pos3)
        | (.error e, p) => (.error e, p)
      | (.error e, p) => (.error e, p)
termination_by structural fuel

/-- Alternative loop of Parser::parse_nonterminal: tries each
production from the recorded initial cursor, restoring that cursor
after every failed alternative (and in the final failure). -/
def try_alternatives (fuel : Nat) (g : Grammar) (tokens : List String) (initial_pos : Nat)
    (nt : String) (alts : List Production) : Except String ASTNode × Nat :=
  match alts with
  | [] => (.error ("Unable to parse nonterminal: " ++ nt), initial_pos)
  | production :: rest =>
    match fuel with
    | 0 => (.error "recursion fuel exhausted", initial_pos)
    | f + 1 =>
      match try_production f g tokens initial_pos production.rhs with
      | (.ok children, pos2) =>
        let typing_rule := production.rule.bind (lookupA g.typing_rules)
        (.ok (ASTNode.mk .Nonterminal nt (some (initial_pos, pos2)) (some children) none typing_rule),
          pos2)
      | (.error _, _) => try_alternatives f g tokens initial_pos nt rest
termination_by structural fuel

/-- Parser::parse_nonterminal: looks the nonterminal up and runs the
alternative loop; an unknown nonterminal fails without moving the
cursor. -/
def parse_nonterminal (fuel : Nat) (g : Grammar) (tokens : List String) (pos : Nat) (nt : String) :
    Except String ASTNode × Nat :=
  match lookupA g.productions nt with
  | some productions =>
    match fuel with
    | 0 => (.error "recursion fuel exhausted", pos)
    | f + 1 => try_alternatives f g tokens pos nt productions
  | none => (.error ("Unable to parse nonterminal: " ++ nt), pos)
termination_by structural fuel

end

/-- Start-symbol selection of Parser::parse: Expr if declared, else
Term if declared, else the first declared nonterminal (the source reads
an arbitrary key of the hash map; the model takes the first), else the
Term fallback. -/
def parse_start (g : Grammar) : String :=
  if (lookupA g.productions "Expr").isSome then "Expr"
  else if (lookupA g.productions "Term").isSome then "Term"
  else ((g.productions.map (·.1)).head?).getD "Term"

/-- Top-level alternative loop of Parser::parse: each alternative of the
start nonterminal is tried from cursor zero; one that parses and leaves
the cursor at or past the end of the tokens becomes the root node
spanning from zero to the final cursor; otherwise the next alternative
is tried; when none fits the parse fails. -/
def parse_top_alts (fuel : Nat) (g : Grammar) (tokens : List String) (start_nt : String) :
    List Production → Except String ASTNode
  | [] => .error "Unable to parse input completely"
  | production :: rest =>
    match try_production fuel g tokens 0 production.rhs with
    | (.ok children, pos) =>
      if pos ≥ tokens.length then
        let typing_rule := production.rule.bind (lookupA g.typing_rules)
        .ok (ASTNode.mk .Nonterminal start_nt (some (0, pos)) (some children) none typing_rule)
      else parse_top_alts fuel g tokens start_nt rest
    | (.error _, _) => parse_top_alts fuel g tokens start_nt rest

/-- Parser::parse from logic/parser.rs, over the token list produced by
the external tokenizer: empty input fails, then the start nonterminal's
alternatives are tried by parse_top_alts. -/
def Parser.parse (fuel : Nat) (g : Grammar) (tokens : List String) : Except String ASTNode :=
  if tokens.isEmpty then .error "Empty input"
  else
    let start_nt := parse_start g
    match lookupA g.productions start_nt with
    | some productions => parse_top_alts fuel g tokens start_nt productions
    | none => .error "Unable to parse input completely"

/-! ### logic/utils.rs -/

mutual

/-- ast_eq from logic/utils.rs: structural tree equality comparing kind,
value, binding and ordered children recursively, ignoring spans and
typing rules. -/
def ast_eq : ASTNode → ASTNode → Bool
  | .mk ka va _ ca ba _, .mk kb vb _ cb bb _ =>
    ka == kb && va == vb && ba == bb &&
      match ca, cb with
      | some ac, some bc => ast_eq_list ac bc
      | none, none => true
      | _, _ => false

/-- Child-list comparison of ast_eq: equal lengths and pairwise
equality. -/
def ast_eq_list : List ASTNode → List ASTNode → Bool
  | [], [] => true
  | x :: xs, y :: ys => ast_eq x y && ast_eq_list xs ys
  | _, _ => false

end

/-! ### Canonical tree codec

Modelled from the spec: the canonical tree codec (the parenthesized
prefix serialization of a syntax tree and its parser) is described in
section 4.4 of the specification but its code is not among the source
files; only the structural equality ast_eq it is tested with is.  The
serialization follows the spec's words: a nonterminal node renders as a
parenthesized group carrying a tag, the node name, an optional
parenthesized rule name, an optional parenthesized binding and the
children; a terminal node renders as a parenthesized group carrying a
tag, an optional parenthesized binding and the quoted literal value.
Parsing reverses the form; the typing rule behind a rule name is not
recoverable from its name alone, so the parser leaves it empty, which
ast_eq ignores. -/

/-- Token of the canonical form. -/
inductive CTok where
  | lp
  | rp
  | word : String → CTok
  | quoted : String → CTok
deriving DecidableEq, Repr

/-- Rendered binding group of the canonical form. -/
def bindingToks : Option String → List CTok
  | some x => [CTok.lp, CTok.word "b", CTok.word x, CTok.rp]
  | none => []

/-- Rendered rule-name group of the canonical form. -/
def ruleToks : Option RawTypingRule → List CTok
  | some r => [CTok.lp, CTok.word "r", CTok.word r.name, CTok.rp]
  | none => []

mutual

/-- Token-level canonical serialization of one node. -/
def serializeToks : ASTNode → List CTok
  | .mk .Terminal v _ _ b _ =>
    [CTok.lp, CTok.word "T"] ++ bindingToks b ++ [CTok.quoted v, CTok.rp]
  | .mk .Nonterminal v _ none b r =>
    [CTok.lp, CTok.word "N", CTok.word v] ++ ruleToks r ++ bindingToks b ++ [CTok.rp]
  | .mk .Nonterminal v _ (some kids) b r =>
    [CTok.lp, CTok.word "N", CTok.word v] ++ ruleToks r ++ bindingToks b ++
      serializeKids kids ++ [CTok.rp]

/-- Token-level canonical serialization of a child list. -/
def serializeKids : List ASTNode → List CTok
  | [] => []
  | t :: ts => serializeToks t ++ serializeKids ts

end

/-- Character rendering of one canonical token. -/
def renderTok : CTok → List Char
  | .lp => ['(']
  | .rp => [')']
  | .word s => s.data
  | .quoted s => '\x27' :: s.data ++ ['\x27']

/-- Character rendering of a canonical token list, space separated. -/
def renderToks : List CTok → List Char
  | [] => []
  | [t] => renderTok t
  | t :: u :: rest => renderTok t ++ ' ' :: renderToks (u :: rest)

/-- Canonical serialization of a tree to text. -/
def serialize (t : ASTNode) : String := String.mk (renderToks (serializeToks t))

/-- Characters allowed inside an unquoted canonical word. -/
def isWordChar (c : Char) : Bool :=
  !(c.isWhitespace || c == '(' || c == ')' || c == '\x27')

/-- Scanner state: at a token boundary, inside a word, or inside a
quoted value (each with the accumulated characters reversed). -/
inductive ScanMode where
  | top
  | inWord : List Char → ScanMode
  | inQuote : List Char → ScanMode
deriving DecidableEq, Repr

/-- Canonical-form scanner: whitespace separates, parentheses stand
alone, a quote introduces a quoted value running to the next quote (an
unterminated quote fails), and anything else is a word. -/
def scanGo : ScanMode → List Char → Option (List CTok)
  | .top, [] => some []
  | .inWord acc, [] => some [CTok.word (String.mk acc.reverse)]
  | .inQuote _, [] => none
  | .top, c :: rest =>
    if c.isWhitespace then scanGo .top rest
    else if c == '(' then (scanGo .top rest).map (CTok.lp :: ·)
    else if c == ')' then (scanGo .top rest).map (CTok.rp :: ·)
    else if c == '\x27' then scanGo (.inQuote []) rest
    else scanGo (.inWord [c]) rest
  | .inWord acc, c :: rest =>
    if isWordChar c then scanGo (.inWord (c :: acc)) rest
    else if c.isWhitespace then
      (scanGo .top rest).map (CTok.word (String.mk acc.reverse) :: ·)
    else if c == '(' then
      (scanGo .top rest).map (fun ts => CTok.word (String.mk acc.reverse) :: CTok.lp :: ts)
    else if c == ')' then
      (scanGo .top rest).map (fun ts => CTok.word (String.mk acc.reverse) :: CTok.rp :: ts)
    else (scanGo (.inQuote []) rest).map (CTok.word (String.mk acc.reverse) :: ·)
  | .inQuote acc, c :: rest =>
    if c == '\x27' then (scanGo .top rest).map (CTok.quoted (String.mk acc.reverse) :: ·)
    else scanGo (.inQuote (c :: acc)) rest

/-- Scan from the boundary state. -/
def scan (cs : List Char) : Option (List CTok) := scanGo .top cs

/-- Optional binding group at the head of the token stream. -/
def parseBinding : List CTok → Option String × List CTok
  | CTok.lp :: CTok.word "b" :: CTok.word x :: CTok.rp :: rest => (some x, rest)
  | toks => (none, toks)

/-- Optional rule-name group at the head of the token stream (its
content is dropped; see the codec header). -/
def skipRule : List CTok → List CTok
  | CTok.lp :: CTok.word "r" :: CTok.word _ :: CTok.rp :: rest => rest
  | toks => toks

mutual

/-- Canonical-form parser for one node.  The fuel is decremented at
every recursive step so the recursion is structural; any fuel of at
least twice the node count of the serialized tree suffices. -/
def parseNode (fuel : Nat) (toks : List CTok) : Option (ASTNode × List CTok) :=
  match fuel, toks with
  | 0, _ => none
  | _ + 1, CTok.lp :: CTok.word "T" :: rest =>
    let br := parseBinding rest
    match br.2 with
    | CTok.quoted v :: CTok.rp :: rest2 =>
      some (ASTNode.mk .Terminal v none none br.1 none, rest2)
    | _ => none
  | f + 1, CTok.lp :: CTok.word "N" :: CTok.word nm :: rest =>
    let br := parseBinding (skipRule rest)
    match parseKids f br.2 with
    | some (kids, CTok.rp :: rest2) =>
      some (ASTNode.mk .Nonterminal nm none (some kids) br.1 none, rest2)
    | _ => none
  | _, _ => none
termination_by structural fuel

/-- Canonical-form parser for a child sequence: children are parsed
while the stream starts a node group. -/
def parseKids (fuel : Nat) (toks : List CTok) : Option (List ASTNode × List CTok) :=
  match fuel, toks with
  | 0, _ => none
  | f + 1, CTok.lp :: CTok.word w :: rest =>
    if w == "T" || w == "N" then
      match parseNode f (CTok.lp :: CTok.word w :: rest) with
      | some (n, rest2) =>
        match parseKids f rest2 with
        | some (ns, rest3) => some (n :: ns, rest3)
        | none => none
      | none => none
    else some ([], CTok.lp :: CTok.word w :: rest)
  | _ + 1, toks => some ([], toks)
termination_by structural fuel

end

/-- Canonical-form parser from text: the whole input must scan and
parse as exactly one node. -/
def parse_canonical (fuel : Nat) (s : String) : Option ASTNode :=
  match scan s.data with
  | some toks =>
    match parseNode fuel toks with
    | some (t, []) => some t
    | _ => none
  | none => none

mutual

/-- Span and typing-rule erasure: what the canonical parser can rebuild
of a node (ast_eq ignores exactly the erased fields). -/
def strip : ASTNode → ASTNode
  | .mk k v _ none b _ => .mk k v none none b none
  | .mk k v _ (some kids) b _ => .mk k v none (some (stripList kids)) b none

/-- Span and typing-rule erasure on a child list. -/
def stripList : List ASTNode → List ASTNode
  | [] => []
  | t :: ts => strip t :: stripList ts

end

mutual

/-- Node count of a tree, used as fuel for the canonical parser. -/
def sizeA : ASTNode → Nat
  | .mk _ _ _ none _ _ => 1
  | .mk _ _ _ (some kids) _ _ => 1 + sizeKids kids

/-- Node count of a child list. -/
def sizeKids : List ASTNode → Nat
  | [] => 0
  | t :: ts => sizeA t + sizeKids ts

end

/-- Well-formed canonical word: non-empty, no whitespace, parentheses
or quotes. -/
def wordOKb (s : String) : Bool := !s.isEmpty && s.data.all isWordChar

/-- Well-formedness of an optional binding for the canonical codec. -/
def bindingOK : Option String → Bool
  | some x => wordOKb x
  | none => true

/-- Well-formedness of an optional attached rule for the canonical
codec. -/
def ruleOK : Option RawTypingRule → Bool
  | some r => wordOKb r.name
  | none => true

mutual

/-- Trees the canonical codec round-trips: terminals carry no children
and no quote character in their value, nonterminals carry a child list
and a well-formed name, and bindings and rule names are well-formed
words.  Trees built by the parser from such token values satisfy this. -/
def wfCanon : ASTNode → Bool
  | .mk .Terminal v _ c b _ => c.isNone && v.data.all (· ≠ '\x27') && bindingOK b
  | .mk .Nonterminal _ _ none _ _ => false
  | .mk .Nonterminal v _ (some kids) b r =>
    wordOKb v && bindingOK b && ruleOK r && wfKids kids

/-- Well-formedness of a child list for the canonical codec. -/
def wfKids : List ASTNode → Bool
  | [] => true
  | t :: ts => wfCanon t && wfKids ts

end

/-- Well-formedness of one canonical token for the scanner round trip. -/
def tokOK : CTok → Bool
  | .lp => true
  | .rp => true
  | .word s => wordOKb s
  | .quoted s => s.data.all (· ≠ '\x27')

/-! ### Specification-side definitions used by the claim theorems -/

/-- Top-level alternative trial as the specification words it: an
alternative succeeds only if every one of its symbols parses and the
cursor ends exactly at the token count; the first such alternative
becomes the root nonterminal node spanning the whole token sequence;
otherwise the parse fails. -/
def firstCompleteSpec (fuel : Nat) (g : Grammar) (tokens : List String) (start_nt : String) :
    List Production → Except String ASTNode
  | [] => .error "Unable to parse input completely"
  | production :: rest =>
    match try_production fuel g tokens 0 production.rhs with
    | (.ok children, pos) =>
      if pos = tokens.length then
        .ok (ASTNode.mk .Nonterminal start_nt (some (0, tokens.length)) (some children) none
          (production.rule.bind (lookupA g.typing_rules)))
      else firstCompleteSpec fuel g tokens start_nt rest
    | (.error _, _) => firstCompleteSpec fuel g tokens start_nt rest

/-- Well-formed context-extension piece as the specification words it:
the piece splits on the colon into exactly a variable and a type. -/
def extPairOf (piece : String) : Option (String × String) :=
  let parts := (splitOnS piece ":").map trimS
  if parts.length = 2 then some (parts.headD "", parts.getD 1 "") else none

/-! ### Concrete instances used by the claim theorems -/

/-- Specification text declaring two alternatives of one nonterminal
with different rule names, written in the grammar notation. -/
def c1Spec : String := "A(r1) ::= \x27x\x27\nA(r2) ::= \x27y\x27"

/-- The grammar Grammar.load builds from c1Spec. -/
def c1G : Grammar :=
  ⟨[("A", [⟨some "r1", [⟨"\x27x\x27", none⟩]⟩, ⟨some "r2", [⟨"\x27y\x27", none⟩]⟩])],
    [], ["x", "y"]⟩

/-- The grammar Grammar.load builds back from the writer's output for
c1G: both alternatives now carry the first alternative's rule name. -/
def c1Reloaded : Grammar :=
  ⟨[("A", [⟨some "r1", [⟨"\x27x\x27", none⟩]⟩, ⟨some "r1", [⟨"\x27y\x27", none⟩]⟩])],
    [], ["x", "y"]⟩

/-- Specification text whose inference-rule block has the premise foo,
which matches none of the three recognized premise forms. -/
def c3Spec : String := "A ::= \x27x\x27\n\nfoo\n--- (r)\nτ"

/-- The grammar Grammar.load builds from c3Spec: the unparseable premise
is stored verbatim in a raw typing rule. -/
def c3G : Grammar :=
  ⟨[("A", [⟨none, [⟨"\x27x\x27", none⟩]⟩])], [("r", ⟨"r", "foo", "τ"⟩)], ["x"]⟩

/-- The SIMPLE_GRAMMAR of the tests in logic/mod.rs, in loaded form:
an arithmetic grammar whose start nonterminal Expr has the alternatives
Term plus Expr and Term. -/
def gSimple : Grammar :=
  ⟨[("Expr", [⟨none, [⟨"Term", some "t"⟩, ⟨"\x27+\x27", none⟩, ⟨"Expr", some "e"⟩]⟩,
      ⟨none, [⟨"Term", some "t"⟩]⟩]),
    ("Term", [⟨none, [⟨"Factor", some "f"⟩, ⟨"\x27*\x27", none⟩, ⟨"Term", some "t"⟩]⟩,
      ⟨none, [⟨"Factor", some "f"⟩]⟩]),
    ("Factor", [⟨none, [⟨"\x27(\x27", none⟩, ⟨"Expr", some "e"⟩, ⟨"\x27)\x27", none⟩]⟩,
      ⟨none, [⟨"Number", some "n"⟩]⟩]),
    ("Number", [⟨none, [⟨"/[0-9]+/", none⟩]⟩])],
    [], ["+", "*", "(", ")"]⟩

/-- The textual form of the SIMPLE_GRAMMAR of logic/mod.rs. -/
def simpleSpec : String :=
  "Expr ::= Term[t] \x27+\x27 Expr[e] | Term[t]\nTerm ::= Factor[f] \x27*\x27 Term[t] | Factor[f]\nFactor ::= \x27(\x27 Expr[e] \x27)\x27 | Number[n]\nNumber ::= /[0-9]+/"

/-- A small parser-shaped tree used as a codec round-trip witness: a
nonterminal with an attached typing rule over one bound terminal. -/
def tWitness : ASTNode :=
  .mk .Nonterminal "Term" (some (0, 1))
    (some [.mk .Terminal "x" (some (0, 1)) none (some "v") none]) none
    (some ⟨"var", "x ∈ Γ", "Γ(x)"⟩)

/-! ## Claim theorems -/

/-- C1.  The grammar round-trip law fails on the code: c1Spec is valid
notation declaring alternatives with two different rule names, but the
writer emits all alternatives of a nonterminal on one line headed by the
first alternative's rule name, so reloading the written output assigns
that rule name to every alternative and the production values differ
from the original grammar's.  (The grammar has no typing rules, so the
incompatibility between the writer's structured rules and the raw rules
the loader builds does not intervene.) -/
theorem C1_grammar_roundtrip_failure :
    Grammar.load c1Spec = .ok c1G ∧
    to_spec_string c1G.productions [] =
      "// --- Production Rules ---\nA(r1) ::= \x27x\x27 | \x27y\x27\n\n" ∧
    Grammar.load (to_spec_string c1G.productions []) = .ok c1Reloaded ∧
    c1Reloaded.productions ≠ c1G.productions ∧
    c1G.typing_rules = [] :=
  ⟨by decide, by decide, by decide, by decide, rfl⟩

/-- C3.  Premises are not parsed at grammar-load time: Grammar::load on
c3Spec, whose inference-rule block has the premise foo matching none of
the three recognized forms, returns a grammar whose rule stores the
premise string verbatim, instead of failing.  The structured parsing
constructor TypingRule::new of logic/grammar/typing.rs, which the
declared typing-rule type and the tests of logic/grammar/mod.rs require
the loader to go through, does reject that premise with the unknown
premise format error. -/
theorem C3_load_skips_premise_parsing :
    Grammar.load c3Spec = .ok c3G ∧
    c3G.typing_rules = [("r", ⟨"r", "foo", "τ"⟩)] ∧
    TypingRule.new "foo" "τ" "r" = .error "Unknown premise format: foo" :=
  ⟨by decide, by decide, by rfl⟩

/-! ### Cursor lemmas for the parser -/

/-- A failing alternative loop returns the recorded initial cursor. -/
theorem try_alternatives_error_pos (g : Grammar) (tokens : List String) (nt : String)
    (alts : List Production) :
    ∀ (fuel : Nat) (initial_pos : Nat) (e : String) (p : Nat),
      try_alternatives fuel g tokens initial_pos nt alts = (.error e, p) → p = initial_pos := by
  induction alts with
  | nil =>
    intro fuel initial_pos e p h
    rw [try_alternatives.eq_1] at h
    exact ((Prod.mk.injEq _ _ _ _).mp h).2.symm
  | cons production rest ih =>
    intro fuel initial_pos e p h
    cases fuel with
    | zero =>
      rw [try_alternatives.eq_2] at h
      exact ((Prod.mk.injEq _ _ _ _).mp h).2.symm
    | succ f =>
      rw [try_alternatives.eq_3] at h
      revert h
      cases htp : try_production f g tokens initial_pos production.rhs with
      | mk r q =>
        cases r with
        | ok children =>
          intro h
          exact absurd ((Prod.mk.injEq _ _ _ _).mp h).1 (by simp)
        | error e2 => intro h; exact ih f initial_pos e p h

/-- A failing parse_nonterminal leaves the cursor where it was at
entry. -/
theorem parse_nonterminal_error_pos (fuel : Nat) (g : Grammar) (tokens : List String)
    (pos : Nat) (nt : String) (e : String) (p : Nat)
    (h : parse_nonterminal fuel g tokens pos nt = (.error e, p)) : p = pos := by
  rw [parse_nonterminal.eq_def] at h
  revert h
  cases lookupA g.productions nt with
  | some productions =>
    cases fuel with
    | zero => intro h; exact ((Prod.mk.injEq _ _ _ _).mp h).2.symm
    | succ f => intro h; exact try_alternatives_error_pos g tokens nt productions f pos e p h
  | none => intro h; exact ((Prod.mk.injEq _ _ _ _).mp h).2.symm

/-- A failing parse_symbol (end of input, exhausted fuel, failed
nonterminal, or terminal mismatch) does not advance the cursor. -/
theorem parse_symbol_error_pos (fuel : Nat) (g : Grammar) (tokens : List String)
    (pos : Nat) (symbol : Symbol) (e : String) (p : Nat)
    (h : parse_symbol fuel g tokens pos symbol = (.error e, p)) : p = pos := by
  rw [parse_symbol.eq_def] at h
  by_cases hend : pos ≥ tokens.length
  · rw [if_pos hend] at h
    exact ((Prod.mk.injEq _ _ _ _).mp h).2.symm
  · rw [if_neg hend] at h
    simp only [] at h
    by_cases hnt : (lookupA g.productions symbol.value).isSome
    · rw [if_pos hnt] at h
      revert h
      cases fuel with
      | zero => intro h; exact ((Prod.mk.injEq _ _ _ _).mp h).2.symm
      | succ f => intro h; exact parse_nonterminal_error_pos f g tokens pos symbol.value e p h
    · rw [if_neg hnt] at h
      by_cases hm : terminal_matches symbol (tokens.getD pos "") = true
      · rw [if_pos hm] at h
        exact absurd ((Prod.mk.injEq _ _ _ _).mp h).1 (by simp)
      · rw [if_neg hm] at h
        exact ((Prod.mk.injEq _ _ _ _).mp h).2.symm

/-- C5.  Backtracking restores the cursor: for every fuel, grammar,
token list and cursor, a parse_nonterminal call that returns an error
leaves the cursor exactly where it was at entry, and a parse_symbol
call that returns an error (in particular a failed terminal match) does
not advance the cursor. -/
theorem C5_backtracking_restores_cursor (fuel : Nat) (g : Grammar) (tokens : List String)
    (pos : Nat) :
    (∀ nt e p, parse_nonterminal fuel g tokens pos nt = (.error e, p) → p = pos) ∧
    (∀ symbol e p, parse_symbol fuel g tokens pos symbol = (.error e, p) → p = pos) :=
  ⟨fun nt e p h => parse_nonterminal_error_pos fuel g tokens pos nt e p h,
   fun symbol e p h => parse_symbol_error_pos fuel g tokens pos symbol e p h⟩

/-- C5 witness: a concrete failing nonterminal parse (at the end of the
input) whose cursor is restored to its entry value one. -/
theorem C5_backtracking_restores_cursor_witness :
    (parse_nonterminal 3 gSimple ["1"] 1 "Expr").2 = 1 :=
  (C5_backtracking_restores_cursor 3 gSimple ["1"] 1).1 "Expr"
    "Unable to parse nonterminal: Expr" (parse_nonterminal 3 gSimple ["1"] 1 "Expr").2 (by rfl)

/-- Cursor upper bound: starting at or before the end of the token
list, every parser function returns a cursor at or before the end. -/
theorem cursor_le (g : Grammar) (tokens : List String) :
    ∀ fuel : Nat,
      (∀ pos symbol, pos ≤ tokens.length →
        (parse_symbol fuel g tokens pos symbol).2 ≤ tokens.length) ∧
      (∀ pos rhs, pos ≤ tokens.length →
        (try_production fuel g tokens pos rhs).2 ≤ tokens.length) ∧
      (∀ ipos nt alts, ipos ≤ tokens.length →
        (try_alternatives fuel g tokens ipos nt alts).2 ≤ tokens.length) ∧
      (∀ pos nt, pos ≤ tokens.length →
        (parse_nonterminal fuel g tokens pos nt).2 ≤ tokens.length) := by
  intro fuel
  induction fuel with
  | zero =>
    refine ⟨?_, ?_, ?_, ?_⟩
    · intro pos symbol hle
      rw [parse_symbol.eq_def]
      by_cases hend : pos ≥ tokens.length
      · rw [if_pos hend]; exact hle
      · rw [if_neg hend]
        by_cases hnt : (lookupA g.productions symbol.value).isSome
        · rw [if_pos hnt]; exact hle
        · rw [if_neg hnt]
          by_cases hm : terminal_matches symbol (tokens.getD pos "") = true
          · rw [if_pos hm]; simp only []; omega
          · rw [if_neg hm]; exact hle
    · intro pos rhs hle
      rw [try_production.eq_def]
      cases rhs with
      | nil => exact hle
      | cons s rest => exact hle
    · intro ipos nt alts hle
      rw [try_alternatives.eq_def]
      cases alts with
      | nil => exact hle
      | cons production rest => exact hle
    · intro pos nt hle
      rw [parse_nonterminal.eq_def]
      cases hl : lookupA g.productions nt with
      | some productions => exact hle
      | none => exact hle
  | succ f ih =>
    obtain ⟨ihS, ihP, ihA, ihN⟩ := ih
    have hS : ∀ pos symbol, pos ≤ tokens.length →
        (parse_symbol (f + 1) g tokens pos symbol).2 ≤ tokens.length := by
      intro pos symbol hle
      rw [parse_symbol.eq_def]
      by_cases hend : pos ≥ tokens.length
      · rw [if_pos hend]; exact hle
      · rw [if_neg hend]
        by_cases hnt : (lookupA g.productions symbol.value).isSome
        · rw [if_pos hnt]
          exact ihN pos symbol.value hle
        · rw [if_neg hnt]
          by_cases hm : terminal_matches symbol (tokens.getD pos "") = true
          · rw [if_pos hm]; simp only []; omega
          · rw [if_neg hm]; exact hle
    have hP : ∀ pos rhs, pos ≤ tokens.length →
        (try_production (f + 1) g tokens pos rhs).2 ≤ tokens.length := by
      intro pos rhs hle
      cases rhs with
      | nil => rw [try_production.eq_1]; exact hle
      | cons s rest =>
        rw [try_production.eq_3]
        split
        · rename_i child pos2 hps
          have hq2 : pos2 ≤ tokens.length := by
            have h2 := ihS pos s hle
            rw [hps] at h2
            exact h2
          have hq3 := ihP pos2 rest hq2
          split
          · rename_i children pos3 htp
            rw [htp] at hq3
            exact hq3
          · rename_i e p htp
            rw [htp] at hq3
            exact hq3
        · rename_i e p hps
          have h2 := ihS pos s hle
          rw [hps] at h2
          exact h2
    refine ⟨hS, hP, ?_, ?_⟩
    · intro ipos nt alts hle
      cases alts with
      | nil => rw [try_alternatives.eq_1]; exact hle
      | cons production rest =>
        rw [try_alternatives.eq_3]
        split
        · rename_i children pos2 htp
          have hq := ihP ipos production.rhs hle
          rw [htp] at hq
          exact hq
        · exact ihA ipos nt rest hle
    · intro pos nt hle
      rw [parse_nonterminal.eq_def]
      cases hl : lookupA g.productions nt with
      | some productions => exact ihA pos nt productions hle
      | none => exact hle

/-- The top-level alternative loop of the parser agrees with its
specification-side reading: completeness tested as cursor-equals-length
and the root span written as the whole token sequence. -/
theorem parse_top_alts_eq_spec (fuel : Nat) (g : Grammar) (tokens : List String)
    (start_nt : String) (alts : List Production) :
    parse_top_alts fuel g tokens start_nt alts =
      firstCompleteSpec fuel g tokens start_nt alts := by
  induction alts with
  | nil => rfl
  | cons production rest ih =>
    rw [parse_top_alts.eq_2, firstCompleteSpec.eq_2]
    split
    · rename_i children q htp
      have hq : q ≤ tokens.length := by
        have hb := (cursor_le g tokens fuel).2.1 0 production.rhs (Nat.zero_le _)
        rw [htp] at hb
        exact hb
      by_cases hc : q ≥ tokens.length
      · have hqe : q = tokens.length := Nat.le_antisymm hq hc
        rw [if_pos hc, if_pos hqe, hqe]
      · rw [if_neg hc, if_neg (by omega)]
        exact ih
    · exact ih

/-- C2 (amended: the source's error string is capitalized).  For every
grammar and tokenized non-empty input, Parser::parse equals the
specification-side trial firstCompleteSpec over the start nonterminal's
alternatives in declaration order from cursor zero: an alternative
succeeds only if every one of its symbols parses and the cursor ends
exactly at the token count, the first such alternative becomes the root
nonterminal node spanning the whole token sequence, and otherwise the
parse fails with the error Unable to parse input completely. -/
theorem C2_parse_contract (fuel : Nat) (g : Grammar) (tokens : List String)
    (h : tokens ≠ []) :
    Parser.parse fuel g tokens =
      firstCompleteSpec fuel g tokens (parse_start g)
        ((lookupA g.productions (parse_start g)).getD []) := by
  rw [Parser.parse]
  rw [if_neg (by simpa using h)]
  cases hl : lookupA g.productions (parse_start g) with
  | some productions =>
    simp only [hl, Option.getD]
    exact parse_top_alts_eq_spec fuel g tokens (parse_start g) productions
  | none => simp only [hl, Option.getD]; rfl

/-- C2 witness: the contract instantiated on the arithmetic grammar and
the token list of the input 1 + 2. -/
theorem C2_parse_contract_witness :
    Parser.parse 50 gSimple ["1", "+", "2"] =
      firstCompleteSpec 50 gSimple ["1", "+", "2"] (parse_start gSimple)
        ((lookupA gSimple.productions (parse_start gSimple)).getD []) :=
  C2_parse_contract 50 gSimple ["1", "+", "2"] (by decide)

/-- C2 counterexample to the claim as stated: parsing the token list of
the input 1 + against the arithmetic grammar (whose start nonterminal
has the alternatives Term plus Expr and Term) fails, but the error
string is Unable to parse input completely with a capital letter, not
the lowercase string the claim quotes. -/
theorem C2_error_message_counterexample :
    Parser.parse 50 gSimple ["1", "+"] = .error "Unable to parse input completely" ∧
    "Unable to parse input completely" ≠ "unable to parse input completely" :=
  ⟨by rfl, by decide⟩

/-! ### Premise classification (C4) -/

/-- C4 (amended: only a premise that starts with the context symbol and
contains the turnstile is parsed as a judgment).  Classification tries
the forms in the priority order judgment, membership, relation: a
trimmed premise starting with the context symbol and containing the
turnstile goes to the judgment parser; otherwise one containing the
membership symbol goes to the membership parser; otherwise one
containing any relation symbol goes to the relation parser; anything
else is the unknown premise format error. -/
theorem C4_premise_classification (s : String) :
    (startsWithS (trimS s) "Γ" = true → containsStr (trimS s) "⊢" = true →
      TypingRule.parse_premise s =
        (match parse_judgement (trimS s) with
         | .error e => .error e
         | .ok (vec_extensions, expression, type_expr) =>
           .ok (Premise.Judgment
             ⟨match vec_extensions with
              | some exts => exts.map fun p => TypingExtension.mk p.2 p.1
              | none => [], expression, type_expr⟩))) ∧
    (¬(startsWithS (trimS s) "Γ" = true ∧ containsStr (trimS s) "⊢" = true) →
      containsStr (trimS s) "∈" = true →
      TypingRule.parse_premise s =
        (match parse_membership (trimS s) with
         | .error e => .error e
         | .ok (v, c) => .ok (Premise.Membership v c))) ∧
    (¬(startsWithS (trimS s) "Γ" = true ∧ containsStr (trimS s) "⊢" = true) →
      containsStr (trimS s) "∈" = false →
      (trimS s).data.any relChar = true →
      TypingRule.parse_premise s =
        (match parse_type_relation (trimS s) with
         | .error e => .error e
         | .ok (l, r, rel) => .ok (Premise.TypeRelation l r rel))) ∧
    (¬(startsWithS (trimS s) "Γ" = true ∧ containsStr (trimS s) "⊢" = true) →
      containsStr (trimS s) "∈" = false →
      (trimS s).data.any relChar = false →
      TypingRule.parse_premise s = .error ("Unknown premise format: " ++ trimS s)) := by
  refine ⟨?_, ?_, ?_, ?_⟩
  · intro h1 h2
    rw [TypingRule.parse_premise]
    rw [if_pos (by rw [h1, h2]; rfl)]
  · intro h1 h2
    rw [TypingRule.parse_premise]
    rw [if_neg (by rw [Bool.and_eq_true]; exact h1), if_pos h2]
  · intro h1 h2 h3
    rw [TypingRule.parse_premise]
    rw [if_neg (by rw [Bool.and_eq_true]; exact h1), if_neg (by rw [h2]; simp), if_pos h3]
  · intro h1 h2 h3
    rw [TypingRule.parse_premise]
    rw [if_neg (by rw [Bool.and_eq_true]; exact h1), if_neg (by rw [h2]; simp),
      if_neg (by rw [h3]; simp)]

/-- C4 witness: the classification instantiated on a judgment premise
with one context extension. -/
theorem C4_premise_classification_witness :
    TypingRule.parse_premise "Γ,x:τ ⊢ e : σ" =
      (match parse_judgement (trimS "Γ,x:τ ⊢ e : σ") with
       | .error e => .error e
       | .ok (vec_extensions, expression, type_expr) =>
         .ok (Premise.Judgment
           ⟨match vec_extensions with
            | some exts => exts.map fun p => TypingExtension.mk p.2 p.1
            | none => [], expression, type_expr⟩)) :=
  (C4_premise_classification "Γ,x:τ ⊢ e : σ").1 (by decide) (by decide)

/-- C4 counterexample to the claim as stated: the premise contains the
turnstile but does not start with the context symbol, so it is parsed
as a type relation (on the colon), not as a type judgment. -/
theorem C4_turnstile_not_judgment_counterexample :
    containsStr "x ⊢ y : τ" "⊢" = true ∧
    TypingRule.parse_premise "x ⊢ y : τ" = .ok (Premise.TypeRelation "x ⊢ y" "τ" ":") ∧
    ∀ j : TypingJudgment, TypingRule.parse_premise "x ⊢ y : τ" ≠ .ok (Premise.Judgment j) := by
  refine ⟨by decide, by rfl, ?_⟩
  intro j h
  have h0 : TypingRule.parse_premise "x ⊢ y : τ" = .ok (Premise.TypeRelation "x ⊢ y" "τ" ":") :=
    by rfl
  rw [h0] at h
  injection h with h2
  exact Premise.noConfusion h2

/-! ### Relation scanning (C6) -/

/-- Scan characterization once a relation symbol has been seen: every
further relation character joins the relation and every other character
joins the right side. -/
theorem relScan_nonempty (cs : List Char) :
    ∀ left relation right, relation ≠ [] →
      relScan cs left relation right =
        (left, relation ++ cs.filter relChar, right ++ cs.filter (fun c => !relChar c)) := by
  induction cs with
  | nil => intro left relation right _; simp [relScan]
  | cons c rest ih =>
    intro left relation right hne
    rw [relScan.eq_2]
    cases hc : relChar c with
    | true =>
      rw [if_pos rfl]
      rw [ih left (relation ++ [c]) right (by simp)]
      simp [List.filter_cons, hc, List.append_assoc]
    | false =>
      rw [if_neg (by simp)]
      rw [if_neg (by simpa using hne)]
      rw [ih left relation (right ++ [c]) hne]
      simp [List.filter_cons, hc, List.append_assoc]

/-- Scan characterization from the start: the left side is everything
before the first relation character, the relation collects every
relation character of the string, and the right side collects the
non-relation characters after the first relation character. -/
theorem relScan_empty (cs : List Char) :
    ∀ left, relScan cs left [] [] =
      (left ++ cs.takeWhile (fun c => !relChar c), cs.filter relChar,
        (cs.dropWhile (fun c => !relChar c)).filter (fun c => !relChar c)) := by
  induction cs with
  | nil => intro left; simp [relScan]
  | cons c rest ih =>
    intro left
    rw [relScan.eq_2]
    cases hc : relChar c with
    | true =>
      rw [if_pos rfl]
      simp only [List.nil_append]
      rw [relScan_nonempty rest left [c] [] (by simp)]
      simp [List.takeWhile_cons, List.dropWhile_cons, List.filter_cons, hc]
    | false =>
      rw [if_neg (by simp)]
      rw [if_pos (by simp)]
      rw [ih (left ++ [c])]
      simp [List.takeWhile_cons, List.dropWhile_cons, List.filter_cons, hc, List.append_assoc]

/-- C6 (amended: the relation accumulates every relation character of
the string, not only the first contiguous run, and the emptiness check
is on the raw accumulations before trimming).  parse_type_relation
returns the trimmed text before the first relation character as the
left side, every relation character of the string as the relation, and
the trimmed non-relation text after the first relation character as the
right side; it errors exactly when no relation character occurs or when
the raw left or right accumulation is empty. -/
theorem C6_type_relation_characterization (s : String) :
    parse_type_relation s =
      (let left := s.data.takeWhile (fun c => !relChar c)
       let relation := s.data.filter relChar
       let right := (s.data.dropWhile (fun c => !relChar c)).filter (fun c => !relChar c)
       if relation.isEmpty then .error ("No relation symbol found in: " ++ s)
       else if left.isEmpty || right.isEmpty then
         .error ("Invalid type relation format: " ++ s)
       else .ok (trimS (String.mk left), trimS (String.mk right), String.mk relation)) := by
  rw [parse_type_relation]
  rw [relScan_empty s.data []]
  simp

/-- C6 counterexample to the claim as stated: on a string with two
separated relation characters the code accumulates both into the
relation and drops them from the right side, where the claim predicts
the relation to be the first run only and the right side to carry the
rest verbatim. -/
theorem C6_first_run_counterexample :
    parse_type_relation "a = b = c" = .ok ("a", "b  c", "==") ∧
    (Except.ok ("a", "b  c", "==") : Except String (String × String × String)) ≠
      .ok ("a", "b = c", "=") :=
  ⟨by decide, by decide⟩

/-! ### Context extensions (C10) -/

/-- Loop characterization of parse_context_extensions: when every
non-empty trimmed piece is a well-formed pair, the loop skips the empty
pieces and returns the pairs of the non-empty pieces in order. -/
theorem ctxExtLoop_spec (rest : List String)
    (h : ∀ piece ∈ (rest.map trimS).filter (· ≠ ""), (extPairOf piece).isSome = true) :
    parse_context_extensions.ctxExtLoop rest =
      .ok (((rest.map trimS).filter (· ≠ "")).filterMap extPairOf) := by
  induction rest with
  | nil => rfl
  | cons ext rest ih =>
    simp only [parse_context_extensions.ctxExtLoop]
    by_cases he : trimS ext = ""
    · rw [if_pos (by simp [he])]
      rw [ih (by intro piece hp; exact h piece (by simpa [he] using hp))]
      simp [he]
    · rw [if_neg (by simpa using he)]
      have hmem : trimS ext ∈ ((ext :: rest).map trimS).filter (· ≠ "") := by
        simp only [List.map_cons, List.filter_cons]
        rw [if_pos (by simpa using he)]
        exact List.mem_cons_self _ _
      have hsome := h (trimS ext) hmem
      rw [extPairOf] at hsome
      have hlen : ((splitOnS (trimS ext) ":").map trimS).length = 2 := by
        by_contra hno
        rw [if_neg hno] at hsome
        simp at hsome
      rw [if_neg (by simp [hlen])]
      rw [ih (by
        intro piece hp
        refine h piece ?_
        simp only [List.map_cons, List.filter_cons]
        rw [if_pos (by simpa using he)]
        exact List.mem_cons_of_mem _ hp)]
      simp only [List.map_cons, List.filter_cons]
      rw [if_pos (by simpa using he)]
      rw [List.filterMap_cons]
      have hpair : extPairOf (trimS ext) =
          some ((((splitOnS (trimS ext) ":").map trimS).headD ""),
            (((splitOnS (trimS ext) ":").map trimS).getD 1 "")) := by
        simp [extPairOf, hlen]
      rw [hpair]

/-- C10.  parse_context_extensions skips empty comma-separated pieces:
when the first comma-separated piece of the trimmed context string is
exactly the context symbol and every non-empty trimmed piece after it
splits on the colon into a pair, the result pairs the context symbol
with exactly the pairs of the non-empty pieces, in order. -/
theorem C10_context_extensions_skip_empty (s : String) (rest : List String)
    (h1 : splitOnS (trimS s) "," = "Γ" :: rest)
    (h2 : ∀ piece ∈ (rest.map trimS).filter (· ≠ ""), (extPairOf piece).isSome = true) :
    parse_context_extensions s =
      .ok ("Γ", ((rest.map trimS).filter (· ≠ "")).filterMap extPairOf) := by
  rw [parse_context_extensions]
  rw [h1]
  simp only [List.headD, List.tail_cons]
  have hg : trimS "Γ" = "Γ" := by decide
  rw [hg]
  rw [if_neg (by simp)]
  rw [ctxExtLoop_spec rest h2]

/-- C10 witness: the pieces of a context string with an empty piece in
the middle, skipped rather than rejected. -/
theorem C10_context_extensions_skip_empty_witness :
    parse_context_extensions "Γ,,x:τ" =
      .ok ("Γ", ((["", "x:τ"].map trimS).filter (· ≠ "")).filterMap extPairOf) :=
  C10_context_extensions_skip_empty "Γ,,x:τ" ["", "x:τ"] (by decide)
    (by intro piece hp; fin_cases hp; decide)

/-! ### Regex terminals (C9) -/

/-- A string starting with a slash does not start with a quote. -/
theorem startsWith_slash_not_quote (v : String) (h : startsWithS v "/" = true) :
    startsWithS v "\x27" = false := by
  obtain ⟨cs⟩ := v
  cases cs with
  | nil => simp [startsWithS, isPrefixL] at h
  | cons c rest =>
    have hd : startsWithS ⟨c :: rest⟩ "/" = (('/' == c) && isPrefixL [] rest) := rfl
    rw [hd] at h
    simp [isPrefixL] at h
    have hd2 : startsWithS ⟨c :: rest⟩ "\x27" = (('\x27' == c) && isPrefixL [] rest) := rfl
    rw [hd2, ← h]
    have hq : ('\x27' == '/') = false := by decide
    rw [hq]
    simp

/-- C9 (amended: the pattern handed to the regex engine is the symbol
value with every leading and trailing slash trimmed, not just the outer
pair).  For a symbol that is not a declared nonterminal, starts with a
slash and ends with a slash, and a cursor inside the token list,
parse_symbol compiles the slash-trimmed value and matches exactly when
the unanchored search regexSearch finds the pattern anywhere inside the
current token (a pattern that fails to compile is an ordinary mismatch,
not a distinct error), consuming the token on success and leaving the
cursor in place on failure. -/
theorem C9_regex_terminal_unanchored (fuel : Nat) (g : Grammar) (tokens : List String)
    (pos : Nat) (symbol : Symbol)
    (hnt : lookupA g.productions symbol.value = none)
    (hs : startsWithS symbol.value "/" = true)
    (he : endsWithS symbol.value "/" = true)
    (hpos : pos < tokens.length) :
    parse_symbol fuel g tokens pos symbol =
      (if (match compileRegex (trimMatchesChar '/' symbol.value) with
           | some re => regexSearch re (tokens.getD pos "")
           | none => false) then
        (.ok (ASTNode.mk .Terminal (tokens.getD pos "") (some (pos, pos + 1)) none
          symbol.binding none), pos + 1)
      else
        (.error ("Expected \x27" ++ symbol.value ++ "\x27, found \x27" ++
          tokens.getD pos "" ++ "\x27"), pos)) := by
  rw [parse_symbol.eq_def]
  rw [if_neg (by omega)]
  rw [if_neg (by rw [hnt]; simp)]
  rw [terminal_matches]
  rw [startsWith_slash_not_quote symbol.value hs]
  rw [Bool.false_and]
  rw [if_neg Bool.false_ne_true]
  rw [hs, he, Bool.true_and]
  rw [if_pos rfl]

/-- C9 witness: the digit-class pattern searched unanchored inside the
token abc123 matches, consuming the token. -/
theorem C9_regex_terminal_unanchored_witness :
    parse_symbol 1 Grammar.new ["abc123"] 0 ⟨"/[0-9]+/", none⟩ =
      (.ok (ASTNode.mk .Terminal "abc123" (some (0, 1)) none none none), 1) := by
  rw [C9_regex_terminal_unanchored 1 Grammar.new ["abc123"] 0 ⟨"/[0-9]+/", none⟩ rfl
    (by decide) (by decide) (by decide)]
  rfl

/-- C9 counterexample to the claim as stated: the symbol value made of
three slashes has the form of a slash followed by the pattern p equal
to one slash followed by a slash, yet the code trims every outer slash,
compiles the empty pattern and matches the token a, even though the
regex p (a literal slash) matches nowhere inside that token. -/
theorem C9_slash_pattern_counterexample :
    ("///" : String) = "/" ++ "/" ++ "/" ∧
    parse_symbol 1 Grammar.new ["a"] 0 ⟨"///", none⟩ =
      (.ok (ASTNode.mk .Terminal "a" (some (0, 1)) none none none), 1) ∧
    (match compileRegex "/" with
     | some re => regexSearch re "a"
     | none => true) = false :=
  ⟨by decide, by rfl, by decide⟩

/-! ### Totality of production parsing and load error analysis (C8) -/

/-- A prefix of a list is a prefix of any extension of it. -/
theorem isPrefixL_append (p : List Char) :
    ∀ x y, isPrefixL p x = true → isPrefixL p (x ++ y) = true := by
  induction p with
  | nil => intro x y _; cases x <;> simp [isPrefixL]
  | cons a ps ih =>
    intro x y h
    cases x with
    | nil => simp [isPrefixL] at h
    | cons c rest =>
      simp only [List.cons_append]
      rw [isPrefixL] at h ⊢
      rw [Bool.and_eq_true] at h ⊢
      exact ⟨h.1, ih rest y h.2⟩

/-- The empty pattern occurs in every list. -/
theorem splitFirstL_nil_isSome (b : List Char) :
    (splitFirstL ([] : List Char) b).isSome = true := by
  cases b <;> simp [splitFirstL, isPrefixL]

/-- An occurrence in a list stays an occurrence after appending. -/
theorem splitFirstL_append_isSome (pat : List Char) :
    ∀ a b, (splitFirstL pat a).isSome = true → (splitFirstL pat (a ++ b)).isSome = true := by
  intro a
  induction a with
  | nil =>
    intro b h
    rw [splitFirstL] at h
    by_cases hp : pat.isEmpty
    · have hpe : pat = [] := by simpa using hp
      rw [hpe]
      exact splitFirstL_nil_isSome b
    · rw [if_neg hp] at h
      simp at h
  | cons c rest ih =>
    intro b h
    rw [splitFirstL] at h
    simp only [List.cons_append]
    rw [splitFirstL]
    by_cases hpre : isPrefixL pat (c :: rest) = true
    · have h2 : isPrefixL pat (c :: (rest ++ b)) = true := by
        have h3 := isPrefixL_append pat (c :: rest) b hpre
        rwa [List.cons_append] at h3
      rw [if_pos h2]
      rfl
    · rw [if_neg hpre] at h
      by_cases hpre2 : isPrefixL pat (c :: (rest ++ b)) = true
      · rw [if_pos hpre2]
        rfl
      · rw [if_neg hpre2]
        cases hs : splitFirstL pat rest with
        | none => rw [hs] at h; simp at h
        | some pr =>
          have h3 := ih b (by rw [hs]; rfl)
          cases hs2 : splitFirstL pat (rest ++ b) with
          | none => simp [hs2] at h3
          | some pr2 =>
            obtain ⟨pre2, post2⟩ := pr2
            rfl

/-- Containment survives appending on the right. -/
theorem containsStr_append (a b pat : String) (h : containsStr a pat = true) :
    containsStr (a ++ b) pat = true := by
  rw [containsStr] at h ⊢
  rw [String.data_append]
  exact splitFirstL_append_isSome pat.data a.data b.data h

/-- The joined production line inherits the separator occurrence from
its first line. -/
theorem containsStr_joinSep (l : String) (conts : List String)
    (h : containsStr l "::=" = true) :
    containsStr (joinSep " " (l :: conts)) "::=" = true := by
  cases conts with
  | nil => exact h
  | cons c rest =>
    rw [joinSep]
    exact containsStr_append _ _ _ (containsStr_append _ _ _ h)

/-- parse_production succeeds on every line containing the production
separator. -/
theorem parse_production_ok (line : String) (h : containsStr line "::=" = true) :
    ∃ pr, parse_production line = .ok pr := by
  rw [containsStr] at h
  cases hs : splitFirstL "::=".data line.data with
  | none => rw [hs] at h; simp at h
  | some pr =>
    obtain ⟨pre, post⟩ := pr
    exact ⟨(trimS (String.mk pre), trimS (String.mk post)), by rw [parse_production, hs]⟩

/-- parse_nonterminal of logic/grammar/utils.rs succeeds on every
input. -/
theorem GrammarUtils_parse_nonterminal_ok (s : String) :
    ∃ r, GrammarUtils.parse_nonterminal s = .ok r := by
  rw [GrammarUtils.parse_nonterminal]
  split
  · exact ⟨_, rfl⟩
  · split
    · exact ⟨_, rfl⟩
    · split
      · exact ⟨_, rfl⟩
      · exact ⟨_, rfl⟩

/-- parse_rhs succeeds on every input. -/
theorem parse_rhs_ok (s : String) : ∃ a, parse_rhs s = .ok a :=
  ⟨_, rfl⟩

/-- The production-block loop of Grammar::load never errors. -/
theorem prodLines_no_error : ∀ (fuel : Nat) (g : Grammar) (lines : List String) (e : String),
    prodLines g fuel lines ≠ .error e := by
  intro fuel
  induction fuel with
  | zero => intro g lines e h; rw [prodLines] at h; exact Except.noConfusion h
  | succ f ih =>
    intro g lines e h
    cases lines with
    | nil => rw [prodLines] at h; exact Except.noConfusion h
    | cons l rest =>
      rw [prodLines] at h
      by_cases hc : containsStr l "::=" = true
      · rw [if_pos hc] at h
        obtain ⟨pr, hpr⟩ :=
          parse_production_ok (joinSep " " (l :: rest.takeWhile (fun x => startsWithS x "|")))
            (containsStr_joinSep l _ hc)
        split at h
        · rename_i e1 heq
          rw [hpr] at heq
          exact Except.noConfusion heq
        · rename_i lhs_str rhs_str heq
          split at h
          · rename_i e1 heq2
            obtain ⟨nr, hnr⟩ := GrammarUtils_parse_nonterminal_ok lhs_str
            rw [hnr] at heq2
            exact Except.noConfusion heq2
          · rename_i name rule_name heq2
            split at h
            · rename_i e1 heq3
              obtain ⟨v, hrr⟩ := parse_rhs_ok rhs_str
              rw [hrr] at heq3
              exact Except.noConfusion heq3
            · exact ih _ _ e h
      · rw [if_neg hc] at h
        exact ih g rest e h

/-- Every error of the block dispatcher of Grammar::load is one of the
two inference-rule block errors. -/
theorem loadBlock_error (g : Grammar) (b : String) (e : String)
    (h : loadBlock g b = .error e) :
    e = "No rule name found in dash line" ∨ e = "No conclusion after dash line" := by
  rw [loadBlock] at h
  by_cases h1 : (blockLines b).isEmpty
  · rw [if_pos h1] at h; exact absurd h (by simp)
  · rw [if_neg h1] at h
    by_cases h2 : (blockLines b).any (fun line => containsStr line "::=") = true
    · rw [if_pos h2] at h
      exact absurd h (prodLines_no_error _ _ _ _)
    · rw [if_neg h2] at h
      split at h
      · split at h
        · exact Or.inl (Except.error.inj h).symm
        · split at h
          · exact Or.inr (Except.error.inj h).symm
          · exact absurd h (by simp)
      · exact absurd h (by simp)

/-- Every error of the block fold of Grammar::load comes from a block
error. -/
theorem loadFold_error : ∀ (blocks : List String) (g : Grammar) (e : String),
    Grammar.load.loadFold g blocks = .error e →
    e = "No rule name found in dash line" ∨ e = "No conclusion after dash line" := by
  intro blocks
  induction blocks with
  | nil => intro g e h; rw [Grammar.load.loadFold] at h; exact Except.noConfusion h
  | cons b rest ih =>
    intro g e h
    rw [Grammar.load.loadFold] at h
    revert h
    cases hb : loadBlock g b with
    | error e2 =>
      intro h
      have he : e = e2 := (Except.error.inj h).symm
      rw [he]
      exact loadBlock_error g b e2 hb
    | ok g2 => intro h; exact ih g2 e h

/-- C8.  Grammar::load can fail only inside an inference-rule block
(dash line without a parenthesized rule name, or no conclusion line
after the dash line): parse_production succeeds on every line
containing the production separator, parse_nonterminal and parse_rhs of
logic/grammar/utils.rs succeed on every input, and every error
Grammar::load returns is one of the two inference-rule block errors, so
a block containing a production line never fails to load. -/
theorem C8_load_errors_only_from_rule_blocks :
    (∀ line : String, containsStr line "::=" = true → ∃ pr, parse_production line = .ok pr) ∧
    (∀ s : String, ∃ r, GrammarUtils.parse_nonterminal s = .ok r) ∧
    (∀ s : String, ∃ a, parse_rhs s = .ok a) ∧
    (∀ input e, Grammar.load input = .error e →
      e = "No rule name found in dash line" ∨ e = "No conclusion after dash line") :=
  ⟨parse_production_ok, GrammarUtils_parse_nonterminal_ok, parse_rhs_ok,
   fun _ e h => loadFold_error _ _ e h⟩

/-- C8 witness: a production line parses, and a concrete load error is
one of the two inference-rule block errors. -/
theorem C8_load_errors_only_from_rule_blocks_witness :
    (∃ pr, parse_production "A ::= x" = .ok pr) ∧
    (Grammar.load "x y\n--- (r)" = .error "No conclusion after dash line" ∧
      ("No conclusion after dash line" = "No rule name found in dash line" ∨
        "No conclusion after dash line" = "No conclusion after dash line")) :=
  ⟨C8_load_errors_only_from_rule_blocks.1 "A ::= x" (by decide),
   by decide,
   C8_load_errors_only_from_rule_blocks.2.2.2 "x y\n--- (r)" _ (by decide)⟩


/-! ### Canonical-codec round trip (C7) -/

theorem skipRule_r (s : String) (rest : List CTok) :
    skipRule (CTok.lp :: CTok.word "r" :: CTok.word s :: CTok.rp :: rest) = rest := rfl

theorem parseBinding_b (x : String) (rest : List CTok) :
    parseBinding (CTok.lp :: CTok.word "b" :: CTok.word x :: CTok.rp :: rest) = (some x, rest) := rfl

theorem skipRule_serk (ts : List ASTNode) (rest : List CTok) :
    skipRule (serializeKids ts ++ CTok.rp :: rest) = serializeKids ts ++ CTok.rp :: rest := by
  cases ts with
  | nil => rfl
  | cons t ts2 =>
    cases t with
    | mk k v sp ch b tr =>
      cases k with
      | Terminal => rfl
      | Nonterminal => cases ch <;> rfl

theorem parseBinding_serk (ts : List ASTNode) (rest : List CTok) :
    parseBinding (serializeKids ts ++ CTok.rp :: rest) = (none, serializeKids ts ++ CTok.rp :: rest) := by
  cases ts with
  | nil => rfl
  | cons t ts2 =>
    cases t with
    | mk k v sp ch b tr =>
      cases k with
      | Terminal => rfl
      | Nonterminal => cases ch <;> rfl

theorem parseNode_N_step (f : Nat) (nm : String) (r : Option RawTypingRule) (b : Option String)
    (ts : List ASTNode) (rest : List CTok)
    (hk : parseKids f (serializeKids ts ++ CTok.rp :: rest) = some (stripList ts, CTok.rp :: rest)) :
    parseNode (f + 1) (CTok.lp :: CTok.word "N" :: CTok.word nm ::
        (ruleToks r ++ (bindingToks b ++ (serializeKids ts ++ CTok.rp :: rest)))) =
      some (ASTNode.mk .Nonterminal nm none (some (stripList ts)) b none, rest) := by
  cases r with
  | some rr =>
    cases b with
    | some x =>
      simp only [parseNode, ruleToks, bindingToks, List.cons_append, List.nil_append,
        skipRule_r, parseBinding_b]
      rw [hk]
    | none =>
      simp only [parseNode, ruleToks, bindingToks, List.cons_append, List.nil_append,
        skipRule_r, parseBinding_serk]
      rw [hk]
  | none =>
    cases b with
    | some x =>
      simp only [parseNode, ruleToks, bindingToks, List.cons_append, List.nil_append,
        parseBinding_b]
      rw [show skipRule (CTok.lp :: CTok.word "b" :: CTok.word x :: CTok.rp ::
        (serializeKids ts ++ CTok.rp :: rest)) = CTok.lp :: CTok.word "b" :: CTok.word x :: CTok.rp ::
        (serializeKids ts ++ CTok.rp :: rest) from rfl]
      rw [parseBinding_b, hk]
    | none =>
      simp only [parseNode, ruleToks, bindingToks, List.cons_append, List.nil_append,
        skipRule_serk, parseBinding_serk]
      rw [hk]

theorem scanGo_top_space (cs : List Char) : scanGo .top (' ' :: cs) = scanGo .top cs := rfl

theorem scanGo_top_lp (cs : List Char) :
    scanGo .top ('(' :: cs) = (scanGo .top cs).map (CTok.lp :: ·) := rfl

theorem scanGo_top_rp (cs : List Char) :
    scanGo .top (')' :: cs) = (scanGo .top cs).map (CTok.rp :: ·) := rfl

theorem scanGo_top_quote (cs : List Char) :
    scanGo .top ('\x27' :: cs) = scanGo (.inQuote []) cs := rfl

theorem eq_false_not_true {b : Bool} (h : b = false) : ¬ (b = true) := by
  rw [h]; exact Bool.false_ne_true

theorem isWordChar_props (c : Char) (h : isWordChar c = true) :
    c.isWhitespace = false ∧ (c == '(') = false ∧ (c == ')') = false ∧ (c == '\x27') = false := by
  rw [isWordChar] at h
  cases hw : c.isWhitespace <;> cases h1 : (c == '(') <;> cases h2 : (c == ')') <;>
    cases h3 : (c == '\x27') <;> rw [hw, h1, h2, h3] at h <;> simp_all

theorem scanGo_top_word (c : Char) (cs : List Char) (hc : isWordChar c = true) :
    scanGo .top (c :: cs) = scanGo (.inWord [c]) cs := by
  obtain ⟨hws, hlp, hrp, hq⟩ := isWordChar_props c hc
  simp only [scanGo]
  rw [if_neg (eq_false_not_true hws), if_neg (eq_false_not_true hlp),
    if_neg (eq_false_not_true hrp), if_neg (eq_false_not_true hq)]

theorem scanGo_word_end : ∀ (cs acc : List Char), cs.all isWordChar = true →
    scanGo (.inWord acc) cs = some [CTok.word (String.mk (acc.reverse ++ cs))] := by
  intro cs
  induction cs with
  | nil => intro acc _; simp [scanGo]
  | cons c cs ih =>
    intro acc h
    rw [List.all_cons, Bool.and_eq_true] at h
    simp only [scanGo]
    rw [if_pos h.1, ih (c :: acc) h.2]
    simp

theorem scanGo_word_sep : ∀ (cs acc rest : List Char), cs.all isWordChar = true →
    scanGo (.inWord acc) (cs ++ ' ' :: rest) =
      (scanGo .top rest).map (CTok.word (String.mk (acc.reverse ++ cs)) :: ·) := by
  intro cs
  induction cs with
  | nil =>
    intro acc rest _
    simp only [List.nil_append, scanGo]
    rw [if_neg (by decide : ¬ (isWordChar ' ' = true)), if_pos (by decide : (' ').isWhitespace = true)]
    simp
  | cons c cs ih =>
    intro acc rest h
    rw [List.all_cons, Bool.and_eq_true] at h
    simp only [List.cons_append, scanGo]
    rw [if_pos h.1]
    simp only [List.append_eq]
    rw [ih (c :: acc) rest h.2]
    simp

theorem scanGo_quote_run : ∀ (cs acc rest : List Char), cs.all (· ≠ '\x27') = true →
    scanGo (.inQuote acc) (cs ++ '\x27' :: rest) =
      (scanGo .top rest).map (CTok.quoted (String.mk (acc.reverse ++ cs)) :: ·) := by
  intro cs
  induction cs with
  | nil =>
    intro acc rest _
    simp only [List.nil_append, scanGo]
    rw [if_pos (by decide : ('\x27' == '\x27') = true)]
    simp
  | cons c cs ih =>
    intro acc rest h
    rw [List.all_cons, Bool.and_eq_true] at h
    simp only [List.cons_append, scanGo]
    have hc : ¬ ((c == '\x27') = true) := by
      intro hb
      exact absurd (eq_of_beq hb) (of_decide_eq_true h.1)
    rw [if_neg hc]
    simp only [List.append_eq]
    rw [ih (c :: acc) rest h.2]
    simp

theorem scan_tok_sep (t : CTok) (rest : List Char) (h : tokOK t = true) :
    scanGo .top (renderTok t ++ ' ' :: rest) = (scanGo .top rest).map (t :: ·) := by
  cases t with
  | lp =>
    simp only [renderTok, List.cons_append, List.nil_append, scanGo_top_lp, scanGo_top_space]
  | rp =>
    simp only [renderTok, List.cons_append, List.nil_append, scanGo_top_rp, scanGo_top_space]
  | word s =>
    rw [tokOK, wordOKb, Bool.and_eq_true] at h
    cases s with
    | mk sdata =>
      cases sdata with
      | nil => exact absurd h.1 (by decide)
      | cons c cs =>
        rw [List.all_cons, Bool.and_eq_true] at h
        simp only [renderTok, List.cons_append]
        rw [scanGo_top_word c _ h.2.1, scanGo_word_sep cs [c] rest h.2.2]
        simp
  | quoted s =>
    rw [tokOK] at h
    cases s with
    | mk sdata =>
      simp only [renderTok, List.cons_append, List.append_assoc, List.nil_append]
      rw [scanGo_top_quote, scanGo_quote_run sdata [] (' ' :: rest) h, scanGo_top_space]
      simp

theorem scan_tok_end (t : CTok) (h : tokOK t = true) : scanGo .top (renderTok t) = some [t] := by
  cases t with
  | lp => rfl
  | rp => rfl
  | word s =>
    rw [tokOK, wordOKb, Bool.and_eq_true] at h
    cases s with
    | mk sdata =>
      cases sdata with
      | nil => exact absurd h.1 (by decide)
      | cons c cs =>
        rw [List.all_cons, Bool.and_eq_true] at h
        simp only [renderTok]
        rw [scanGo_top_word c _ h.2.1, scanGo_word_end cs [c] h.2.2]
        simp
  | quoted s =>
    rw [tokOK] at h
    cases s with
    | mk sdata =>
      simp only [renderTok, List.cons_append]
      rw [scanGo_top_quote, scanGo_quote_run sdata [] [] h]
      simp [scanGo]

theorem scan_renderToks : ∀ toks : List CTok, toks.all tokOK = true →
    scan (renderToks toks) = some toks := by
  intro toks
  induction toks with
  | nil => intro _; rfl
  | cons t rest ih =>
    cases rest with
    | nil =>
      intro h
      rw [List.all_cons, Bool.and_eq_true] at h
      exact scan_tok_end t h.1
    | cons u rest2 =>
      intro h
      rw [List.all_cons, Bool.and_eq_true] at h
      show scanGo .top (renderToks (t :: u :: rest2)) = some (t :: u :: rest2)
      simp only [renderToks]
      rw [scan_tok_sep t _ h.1]
      rw [show scanGo ScanMode.top (renderToks (u :: rest2)) = scan (renderToks (u :: rest2)) from rfl]
      rw [ih h.2]
      rfl

theorem sizeA_pos (t : ASTNode) : 1 ≤ sizeA t := by
  cases t with
  | mk k v sp ch b tr => cases ch <;> simp [sizeA]

theorem bindingToks_all (b : Option String) (h : bindingOK b = true) :
    (bindingToks b).all tokOK = true := by
  cases b with
  | none => rfl
  | some x =>
    rw [bindingOK] at h
    simp only [bindingToks, List.all_cons, List.all_nil, tokOK]
    rw [h]
    decide

theorem ruleToks_all (r : Option RawTypingRule) (h : ruleOK r = true) :
    (ruleToks r).all tokOK = true := by
  cases r with
  | none => rfl
  | some rr =>
    rw [ruleOK] at h
    simp only [ruleToks, List.all_cons, List.all_nil, tokOK]
    rw [h]
    decide

theorem serial_tokOK : ∀ n : Nat,
    (∀ t, sizeA t ≤ n → wfCanon t = true → (serializeToks t).all tokOK = true) ∧
    (∀ ts, sizeKids ts ≤ n → wfKids ts = true → (serializeKids ts).all tokOK = true) := by
  intro n
  induction n with
  | zero =>
    constructor
    · intro t ht _
      exact absurd (le_trans (sizeA_pos t) ht) (by decide)
    · intro ts hts _
      cases ts with
      | nil => rfl
      | cons t ts2 =>
        have := sizeA_pos t
        simp only [sizeKids] at hts
        omega
  | succ n ih =>
    have hA : ∀ t, sizeA t ≤ n + 1 → wfCanon t = true →
        (serializeToks t).all tokOK = true := by
      intro t ht hwf
      cases t with
      | mk k v sp ch b tr =>
        cases k with
        | Terminal =>
          cases ch with
          | some kids => simp [wfCanon] at hwf
          | none =>
            simp only [wfCanon, Option.isNone_none, Bool.true_and, Bool.and_eq_true,
              List.all_eq_true, decide_eq_true_eq] at hwf
            have hT : wordOKb "T" = true := by decide
            simp [serializeToks, List.all_append, tokOK, bindingToks_all b hwf.2, hT]
            exact hwf.1
        | Nonterminal =>
          cases ch with
          | none => simp [wfCanon] at hwf
          | some kids =>
            simp only [wfCanon, Bool.and_eq_true] at hwf
            simp only [sizeA] at ht
            have hN : wordOKb "N" = true := by decide
            simp [serializeToks, List.all_append, tokOK, ruleToks_all tr hwf.1.2,
              bindingToks_all b hwf.1.1.2, hwf.1.1.1, hN, ih.2 kids (by omega) hwf.2]
    have hB : ∀ ts, sizeKids ts ≤ n + 1 → wfKids ts = true →
        (serializeKids ts).all tokOK = true := by
      intro ts
      induction ts with
      | nil => intro _ _; rfl
      | cons t ts2 ihl =>
        intro hts hwf
        simp only [sizeKids] at hts
        have h1 := sizeA_pos t
        simp only [wfKids, Bool.and_eq_true] at hwf
        simp only [serializeKids, List.all_append, Bool.and_eq_true]
        exact ⟨hA t (by omega) hwf.1, ihl (by omega) hwf.2⟩
    exact ⟨hA, hB⟩

theorem ast_eq_strip_n : ∀ n : Nat,
    (∀ t, sizeA t ≤ n → ast_eq (strip t) t = true) ∧
    (∀ ts, sizeKids ts ≤ n → ast_eq_list (stripList ts) ts = true) := by
  intro n
  induction n with
  | zero =>
    constructor
    · intro t ht
      exact absurd (le_trans (sizeA_pos t) ht) (by decide)
    · intro ts hts
      cases ts with
      | nil => rfl
      | cons t ts2 =>
        have := sizeA_pos t
        simp only [sizeKids] at hts
        omega
  | succ n ih =>
    have hA : ∀ t, sizeA t ≤ n + 1 → ast_eq (strip t) t = true := by
      intro t ht
      cases t with
      | mk k v sp ch b tr =>
        cases ch with
        | none => simp [strip, ast_eq]
        | some kids =>
          simp only [sizeA] at ht
          simp only [strip, ast_eq, Bool.and_eq_true]
          exact ⟨by simp, ih.2 kids (by omega)⟩
    have hB : ∀ ts, sizeKids ts ≤ n + 1 → ast_eq_list (stripList ts) ts = true := by
      intro ts
      induction ts with
      | nil => intro _; rfl
      | cons t ts2 ihl =>
        intro hts
        simp only [sizeKids] at hts
        have h1 := sizeA_pos t
        simp only [stripList, ast_eq_list, Bool.and_eq_true]
        exact ⟨hA t (by omega), ihl (by omega)⟩
    exact ⟨hA, hB⟩

theorem serializeToks_head (t : ASTNode) :
    ∃ w rest0, serializeToks t = CTok.lp :: CTok.word w :: rest0 ∧
      ((w == "T") || (w == "N")) = true := by
  cases t with
  | mk k v sp ch b tr =>
    cases k with
    | Terminal => exact ⟨"T", _, rfl, by decide⟩
    | Nonterminal =>
      cases ch with
      | none => exact ⟨"N", _, rfl, by decide⟩
      | some kids => exact ⟨"N", _, rfl, by decide⟩

theorem parseNode_serial : ∀ fuel : Nat,
    (∀ t rest, wfCanon t = true → 2 * sizeA t ≤ fuel →
      parseNode fuel (serializeToks t ++ rest) = some (strip t, rest)) ∧
    (∀ ts rest, wfKids ts = true → 2 * sizeKids ts + 1 ≤ fuel →
      parseKids fuel (serializeKids ts ++ CTok.rp :: rest) = some (stripList ts, CTok.rp :: rest)) := by
  intro fuel
  induction fuel with
  | zero =>
    constructor
    · intro t rest _ hb
      have := sizeA_pos t
      omega
    · intro ts rest _ hb
      omega
  | succ f ih =>
    have hA : ∀ t rest, wfCanon t = true → 2 * sizeA t ≤ f + 1 →
        parseNode (f + 1) (serializeToks t ++ rest) = some (strip t, rest) := by
      intro t rest hwf hb
      cases t with
      | mk k v sp ch b tr =>
        cases k with
        | Terminal =>
          cases ch with
          | some kids => simp [wfCanon] at hwf
          | none =>
            cases b with
            | none => rfl
            | some x => rfl
        | Nonterminal =>
          cases ch with
          | none => simp [wfCanon] at hwf
          | some kids =>
            simp only [wfCanon, Bool.and_eq_true] at hwf
            simp only [sizeA] at hb
            simp only [serializeToks, List.cons_append, List.append_assoc, List.nil_append]
            rw [parseNode_N_step f v tr b kids rest
              (ih.2 kids rest hwf.2 (by omega))]
            simp only [strip]
    have hB : ∀ ts rest, wfKids ts = true → 2 * sizeKids ts + 1 ≤ f + 1 →
        parseKids (f + 1) (serializeKids ts ++ CTok.rp :: rest) =
          some (stripList ts, CTok.rp :: rest) := by
      intro ts rest hwf hb
      cases ts with
      | nil => rfl
      | cons t ts2 =>
        simp only [wfKids, Bool.and_eq_true] at hwf
        simp only [sizeKids] at hb
        have h1 := sizeA_pos t
        obtain ⟨w, rest0, hser, hw⟩ := serializeToks_head t
        simp only [serializeKids, List.append_assoc]
        rw [hser, List.cons_append, List.cons_append]
        simp only [parseKids]
        rw [if_pos hw]
        rw [← List.cons_append, ← List.cons_append, ← hser]
        simp only [ih.1 t (serializeKids ts2 ++ CTok.rp :: rest) hwf.1 (by omega)]
        simp only [ih.2 ts2 rest hwf.2 (by omega)]
        rfl
    exact ⟨hA, hB⟩

/-- C7.  Tree round trip via the canonical codec: for every syntax tree
whose values fit the canonical token forms (terminal values free of the
quote character, nonterminal names, bindings and rule names non-empty
words), parsing the canonical serialized form of the tree yields exactly
its span-and-typing-rule erasure, which is structurally equal (ast_eq,
the syneq of logic/utils.rs) to the original tree: ast_eq compares kind,
value, binding and ordered children recursively and ignores spans and
typing-rule identity. -/
theorem C7_canonical_roundtrip (t : ASTNode) (fuel : Nat) (hwf : wfCanon t = true)
    (hfuel : 2 * sizeA t ≤ fuel) :
    parse_canonical fuel (serialize t) = some (strip t) ∧ ast_eq (strip t) t = true := by
  constructor
  · have hs : scan (String.mk (renderToks (serializeToks t))).data = some (serializeToks t) :=
      scan_renderToks _ ((serial_tokOK (sizeA t)).1 t le_rfl hwf)
    have hp := (parseNode_serial fuel).1 t [] hwf hfuel
    rw [List.append_nil] at hp
    simp only [parse_canonical, serialize, hs, hp]
  · exact (ast_eq_strip_n (sizeA t)).1 t le_rfl

/-- C7 witness: the codec round-trips a concrete parser-shaped tree. -/
theorem C7_canonical_roundtrip_witness :
    wfCanon tWitness = true ∧ 2 * sizeA tWitness ≤ 10 ∧
    parse_canonical 10 (serialize tWitness) = some (strip tWitness) ∧
    ast_eq (strip tWitness) tWitness = true :=
  ⟨by decide, by decide, C7_canonical_roundtrip tWitness 10 (by decide) (by decide)⟩


end Beam
